import Mathlib

/-
Verification of the `deduplicate` repository against its specification.

Part A embeds the SQLite-backed hashing pipeline of `dupe_analysis.py`
(class `DupeAnalysis`): the `files` table, the collision-selection SQL of
`_generate_hash_sql`, the per-pass update loop of `_compute_hash`, the
insert logic of `analyze`, and the merge logic of `_copy_data` / `_merge`.
Filesystem reads (`os.path.getsize`, the chunk reads inside `get_hash`)
are abstracted as a fixed deterministic oracle `HashWorld`: file contents
do not change during a run, so a stage hash of a path is a pure function
of the path and of the sampled region.

Part B embeds the in-memory duplicate graph and the keep/delete
resolution algorithm of `deduplicate.py` (classes `DupeFile`, `DupeDir`,
`DirectoryComparator`, `HashAnalysis`).
-/

/-- The three content-sampling positions of `DupeAnalysis.get_hash`
(`beg_hash` reads the first chunk, `rev_hash` the end+middle samples,
`full_hash` the whole file). -/
inductive HashPos where
  | beg
  | rev
  | full
deriving DecidableEq

/-- Columns of the `files` table that take part in the staged-hash SQL. -/
inductive Column where
  | size
  | beg_hash
  | rev_hash
  | full_hash
deriving DecidableEq

/-- A SQL value as compared by the collision query: the `size` column holds
integers, the hash columns hold text. -/
inductive HVal where
  | int (i : Int)
  | str (s : String)
deriving DecidableEq

/-- One row of the `files` table (`path` is UNIQUE; the inert metadata
columns `depth`, `dirpath`, `name` are omitted as no query in scope reads
them). `none` models SQL NULL. -/
structure FileRow where
  path : String
  size : Int
  beg_hash : Option String
  rev_hash : Option String
  full_hash : Option String
deriving DecidableEq

abbrev Table := List FileRow

/-- The filesystem as seen by one run: `osize` is `os.path.getsize`
(`none` = OSError), `ohash` is the sha1 of the region sampled by
`get_hash` at a position (`none` = OSError on open/read). -/
structure HashWorld where
  osize : String → Option Int
  ohash : String → HashPos → Option String

/-- `DupeAnalysis.zero_hash`: sha1 of empty content. -/
def zeroHash : String := "da39a3ee5e6b4b0d3255bfef95601890afd80709"

/-- Python f-string interpolation of an `Optional[str]` as done by
`_update_file_hashes` (`SET {position} = '{hash}'`): `None` is rendered
as the literal string `"None"`. -/
def pyStr : Option String → String
  | none => "None"
  | some s => s

/-- The size recorded for a path by `DupeAnalysis.analyze`:
`os.path.getsize` with `except OSError: file_size = -1`. -/
def sizeW (w : HashWorld) (p : String) : Int :=
  match w.osize p with
  | some s => s
  | none => -1

/-- Read one column from a row, as a SQL value (`none` = NULL; the
`size` column is never NULL). -/
def colVal : Column → FileRow → Option HVal
  | .size, r => some (.int r.size)
  | .beg_hash, r => r.beg_hash.map HVal.str
  | .rev_hash, r => r.rev_hash.map HVal.str
  | .full_hash, r => r.full_hash.map HVal.str

/-- Write one hash column of a row (the `size` column is never the target
of `_update_file_hashes`; that case is inert). -/
def setCol (r : FileRow) (c : Column) (v : Option String) : FileRow :=
  match c with
  | .size => r
  | .beg_hash => { r with beg_hash := v }
  | .rev_hash => { r with rev_hash := v }
  | .full_hash => { r with full_hash := v }

/-- Inner subquery of `_generate_hash_sql`: the value `v` of column `old`
is a collision value iff at least two rows with `old` non-null and
`size > 0` share it (`GROUP BY old HAVING COUNT(id) > 1`). -/
def isInnerVal (T : Table) (old : Column) (v : HVal) : Bool :=
  decide (2 ≤ (T.filter (fun q => decide (colVal old q = some v) && decide (0 < q.size))).length)

/-- Row filter of `_generate_hash_sql`: `old IN (colliding values) AND new IS NULL`.
A NULL `old` never satisfies the SQL `IN`. -/
def selPred (T : Table) (old new : Column) (r : FileRow) : Bool :=
  (match colVal old r with
   | none => false
   | some v => isInnerVal T old v) && decide (colVal new r = none)

/-- Result set of the SELECT issued by `_compute_hash` (the selection is
fetched in full before any update runs). -/
def sqlSelect (T : Table) (old new : Column) : Table :=
  T.filter (selPred T old new)

/-- Which sampling position a hash column name dispatches to inside
`get_hash`; `size` is never passed as a position. -/
def posOf : Column → Option HashPos
  | .size => none
  | .beg_hash => some HashPos.beg
  | .rev_hash => some HashPos.rev
  | .full_hash => some HashPos.full

/-- Embedding of the static method `DupeAnalysis.get_hash`.  Its
`filesize == 0` branch reads `self.zero_hash` inside a `@staticmethod`,
which raises `NameError` when executed; we model that crash (and the
`raise Exception('invalid position')` branch) as `.error`.  An `OSError`
on open/read returns Python `None`, modelled as `.ok none`. -/
def DupeAnalysis.get_hash (w : HashWorld) (filename : String) (filesize : Int)
    (position : Option HashPos) : Except Unit (Option String) :=
  if filesize = 0 then .error ()
  else
    match position with
    | some pos => .ok (w.ohash filename pos)
    | none => .error ()

/-- `_update_file_hashes`: `UPDATE files SET {position} = '{hash}' WHERE id = {fid}`
(the row is addressed by its unique id; `path` is UNIQUE so we address by
path).  The written value is the f-string rendering of the hash. -/
def updateFileHashes (T : Table) (p : String) (c : Column) (h : String) : Table :=
  T.map (fun r => if r.path = p then setCol r c (some h) else r)

/-- `_compute_hash old new`: run the collision SELECT once, then for each
fetched row compute `get_hash(path, size, new)` and write the result. -/
def computePass (w : HashWorld) (T : Table) (old new : Column) : Except Unit Table :=
  (sqlSelect T old new).foldlM
    (fun acc r => do
      let h ← DupeAnalysis.get_hash w r.path r.size (posOf new)
      pure (updateFileHashes acc r.path new (pyStr h)))
    T

/-- `_compute_hashes`: pass 1 (size → beg_hash), pass 2 (beg_hash →
rev_hash), and pass 3 (rev_hash → full_hash) only when `complete_hash`. -/
def computeHashes (w : HashWorld) (complete_hash : Bool) (T : Table) : Except Unit Table := do
  let t1 ← computePass w T Column.size Column.beg_hash
  let t2 ← computePass w t1 Column.beg_hash Column.rev_hash
  if complete_hash then computePass w t2 Column.rev_hash Column.full_hash else pure t2

/-- Row created by `_insert_files_empty_batch` for a 0-byte file: all three
stage hashes are set to `zero_hash` in the INSERT itself. -/
def zeroRow (p : String) : FileRow :=
  ⟨p, 0, some zeroHash, some zeroHash, some zeroHash⟩

/-- The insert phase of `DupeAnalysis.analyze` (batched path, the default):
a file of size 0 goes to `_insert_files_empty_batch`, every other file
(including the `OSError → -1` case) to `_insert_files_batch` with NULL
hashes. -/
def analyzeRows (w : HashWorld) (files : List String) : Table :=
  files.map (fun p =>
    match w.osize p with
    | some sz => if sz = 0 then zeroRow p else ⟨p, sz, none, none, none⟩
    | none => ⟨p, -1, none, none, none⟩)

/-- `DupeAnalysis.analyze`: walk and insert, then `_compute_hashes`. -/
def DupeAnalysis.analyze (w : HashWorld) (complete_hash : Bool) (files : List String) :
    Except Unit Table :=
  computeHashes w complete_hash (analyzeRows w files)

/-- `_copy_data` on the `files` table: `INSERT OR IGNORE` row by row — a
row whose path is already present in the destination is skipped. -/
def copyData (dst src : Table) : Table :=
  src.foldl (fun acc r => if acc.any (fun q => decide (q.path = r.path)) then acc else acc ++ [r]) dst

/-- `_merge`: copy every found store into the (possibly fresh, possibly
pre-existing) destination table, then recompute hashes over the union. -/
def mergeInto (w : HashWorld) (complete_hash : Bool) (init : Table) (stores : List Table) :
    Except Unit Table :=
  computeHashes w complete_hash (stores.foldl copyData init)

def findRow (T : Table) (p : String) : Option FileRow :=
  T.find? (fun r => decide (r.path = p))

def colOf (T : Table) (c : Column) (p : String) : Option HVal :=
  (findRow T p).bind (colVal c)

/-- Two paths land in a common duplicate group of `_query_duplicates hash`
iff they are distinct and share a non-null value in that column (the
`HAVING COUNT(id) > 1` bound is then automatic). -/
def sameGroup (T : Table) (c : Column) (p q : String) : Bool :=
  decide (p ≠ q) &&
    match colOf T c p, colOf T c q with
    | some a, some b => decide (a = b)
    | _, _ => false

/-- Which column `get_duplicates` groups by. -/
def dupCol (complete_hash : Bool) : Column :=
  if complete_hash then Column.full_hash else Column.rev_hash

def pathsOf (T : Table) : List String := T.map (·.path)

/-! ### Canonical stage-hash values

Because each stage writes a value that depends only on the path (via the
oracle) and on which earlier-stage collisions exist, the fully hashed
table is a function of the world and the set of stored paths alone.  The
following definitions spell out that normal form. -/

/-- Size collision: the path has positive recorded size shared with at
least one other stored path. -/
def SC (w : HashWorld) (P : List String) (p : String) : Prop :=
  0 < sizeW w p ∧ ∃ q ∈ P, q ≠ p ∧ sizeW w q = sizeW w p

instance decSC (w : HashWorld) (P : List String) (p : String) : Decidable (SC w P p) := by
  unfold SC; exact inferInstance

/-- Canonical `beg_hash` cell of a stored path. -/
def cBeg (w : HashWorld) (P : List String) (p : String) : Option String :=
  if sizeW w p = 0 then some zeroHash
  else if SC w P p then some (pyStr (w.ohash p HashPos.beg)) else none

/-- `beg_hash` collision among positive-size stored paths. -/
def BC (w : HashWorld) (P : List String) (p : String) : Prop :=
  0 < sizeW w p ∧ (cBeg w P p).isSome ∧
    ∃ q ∈ P, q ≠ p ∧ 0 < sizeW w q ∧ cBeg w P q = cBeg w P p

instance decBC (w : HashWorld) (P : List String) (p : String) : Decidable (BC w P p) := by
  unfold BC; exact inferInstance

/-- Canonical `rev_hash` cell of a stored path. -/
def cRev (w : HashWorld) (P : List String) (p : String) : Option String :=
  if sizeW w p = 0 then some zeroHash
  else if BC w P p then some (pyStr (w.ohash p HashPos.rev)) else none

/-- `rev_hash` collision among positive-size stored paths. -/
def FC (w : HashWorld) (P : List String) (p : String) : Prop :=
  0 < sizeW w p ∧ (cRev w P p).isSome ∧
    ∃ q ∈ P, q ≠ p ∧ 0 < sizeW w q ∧ cRev w P q = cRev w P p

instance decFC (w : HashWorld) (P : List String) (p : String) : Decidable (FC w P p) := by
  unfold FC; exact inferInstance

/-- Canonical `full_hash` cell (populated only in `complete_hash` mode). -/
def cFull (w : HashWorld) (complete_hash : Bool) (P : List String) (p : String) : Option String :=
  if sizeW w p = 0 then some zeroHash
  else if complete_hash = true ∧ FC w P p then some (pyStr (w.ohash p HashPos.full)) else none

/-- The canonical (fully hashed) row of a stored path. -/
def canonRow (w : HashWorld) (complete_hash : Bool) (P : List String) (p : String) : FileRow :=
  ⟨p, sizeW w p, cBeg w P p, cRev w P p, cFull w complete_hash P p⟩

/-- Consistency invariant of every reachable store: sizes match the
world, every non-null hash cell already has its canonical value, and
0-byte rows were inserted with all three hashes filled. -/
def storeInv (w : HashWorld) (complete_hash : Bool) (T : Table) : Prop :=
  ∀ r ∈ T,
    r.size = sizeW w r.path ∧
    (r.beg_hash = none ∨ r.beg_hash = cBeg w (pathsOf T) r.path) ∧
    (r.rev_hash = none ∨ r.rev_hash = cRev w (pathsOf T) r.path) ∧
    (r.full_hash = none ∨ r.full_hash = cFull w complete_hash (pathsOf T) r.path) ∧
    (r.size = 0 → r.beg_hash ≠ none ∧ r.rev_hash ≠ none ∧ r.full_hash ≠ none)

instance decInv (w : HashWorld) (complete_hash : Bool) (T : Table) : Decidable (storeInv w complete_hash T) := by
  unfold storeInv; exact inferInstance

/-! ### Basic lemmas about the table operations -/

theorem setCol_path (r : FileRow) (c : Column) (v : Option String) :
    (setCol r c v).path = r.path := by
  cases c <;> rfl

theorem setCol_size (r : FileRow) (c : Column) (v : Option String) :
    (setCol r c v).size = r.size := by
  cases c <;> rfl

theorem two_le_length_of_mem_ne {α : Type _} {l : List α} {a b : α}
    (ha : a ∈ l) (hb : b ∈ l) (hne : a ≠ b) : 2 ≤ l.length := by
  match l with
  | [] => exact absurd ha (List.not_mem_nil a)
  | [x] =>
    have h1 : a = x := by simpa using ha
    have h2 : b = x := by simpa using hb
    exact absurd (h1.trans h2.symm) hne
  | x :: y :: t => simp only [List.length]; omega

theorem exists_mem_of_two_le_filter {α : Type _} {l : List α} {f : α → Bool}
    (h2 : 2 ≤ (l.filter f).length) : ∃ b ∈ l, f b = true := by
  have hne : l.filter f ≠ [] := by
    intro h
    rw [h] at h2
    simp at h2
  obtain ⟨b, hb⟩ := List.exists_mem_of_ne_nil _ hne
  exact ⟨b, (List.mem_filter.mp hb).1, (List.mem_filter.mp hb).2⟩

theorem exists_mem_ne_of_two_le_filter {α : Type _} {l : List α} {f : α → Bool}
    (hnd : l.Nodup) (a : α) (h2 : 2 ≤ (l.filter f).length) :
    ∃ b ∈ l, f b = true ∧ b ≠ a := by
  have hndf : (l.filter f).Nodup := hnd.filter f
  rcases hL : l.filter f with _ | ⟨x, _ | ⟨y, t⟩⟩
  · rw [hL] at h2; simp at h2
  · rw [hL] at h2; simp at h2
  · have hx : x ∈ l.filter f := by rw [hL]; exact List.mem_cons_self _ _
    have hy : y ∈ l.filter f := by rw [hL]; exact List.mem_cons_of_mem _ (List.mem_cons_self _ _)
    have hxy : x ≠ y := by
      rw [hL] at hndf
      intro h
      exact (List.nodup_cons.mp hndf).1 (h ▸ List.mem_cons_self _ _)
    by_cases hxa : x = a
    · refine ⟨y, (List.mem_filter.mp hy).1, (List.mem_filter.mp hy).2, ?_⟩
      intro h; exact hxy (hxa.trans h.symm)
    · exact ⟨x, (List.mem_filter.mp hx).1, (List.mem_filter.mp hx).2, hxa⟩

theorem row_eq_of_path_eq {T : Table} (hnd : (pathsOf T).Nodup) {r q : FileRow}
    (hr : r ∈ T) (hq : q ∈ T) (h : r.path = q.path) : r = q := by
  exact List.inj_on_of_nodup_map hnd hr hq h

theorem pathsOf_map_keep {T : Table} {f : FileRow → FileRow}
    (hf : ∀ r, (f r).path = r.path) : pathsOf (T.map f) = pathsOf T := by
  unfold pathsOf
  rw [List.map_map]
  exact List.map_congr_left (fun r _ => hf r)

/-- Under the hypotheses that every selected row has nonzero size and the
target column is a real hash position, the per-row update loop of
`_compute_hash` runs to completion, writing the oracle value of each
selected path. -/
theorem computePass_ok_of (w : HashWorld) (new : Column) (S : Table) (T : Table)
    (pos : HashPos) (hpos : posOf new = some pos)
    (hsz : ∀ r ∈ S, r.size ≠ 0) :
    (S.foldlM (fun acc r => do
        let h ← DupeAnalysis.get_hash w r.path r.size (posOf new)
        pure (updateFileHashes acc r.path new (pyStr h))) T : Except Unit Table)
      = .ok (S.foldl (fun acc r =>
          updateFileHashes acc r.path new (pyStr (w.ohash r.path pos))) T) := by
  induction S generalizing T with
  | nil => rfl
  | cons r S ih =>
    have h1 : DupeAnalysis.get_hash w r.path r.size (posOf new) = .ok (w.ohash r.path pos) := by
      unfold DupeAnalysis.get_hash
      rw [if_neg (hsz r (List.mem_cons_self _ _)), hpos]
    rw [List.foldlM_cons, List.foldl_cons, h1]
    show (Except.ok (w.ohash r.path pos) >>= fun h =>
        List.foldlM _ (updateFileHashes T r.path new (pyStr h)) S) = _
    rw [show ∀ (x : Option String) (g : Option String → Except Unit Table),
          (Except.ok x >>= g) = g x from fun _ _ => rfl]
    exact ih _ (fun q hq => hsz q (List.mem_cons_of_mem _ hq))

theorem foldl_update_eq_map (T : Table) (ps : List String) (hnd : ps.Nodup)
    (new : Column) (f : String → String) :
    ps.foldl (fun acc p => updateFileHashes acc p new (f p)) T
      = T.map (fun r => if r.path ∈ ps then setCol r new (some (f r.path)) else r) := by
  induction ps generalizing T with
  | nil => simp
  | cons p ps ih =>
    rw [List.foldl_cons, ih (updateFileHashes T p new (f p)) hnd.of_cons]
    unfold updateFileHashes
    rw [List.map_map]
    apply List.map_congr_left
    intro r _
    have hnp : p ∉ ps := (List.nodup_cons.mp hnd).1
    simp only [Function.comp_apply]
    by_cases hp : r.path = p
    · rw [if_pos hp]
      have h2 : (setCol r new (some (f p))).path ∉ ps := by
        rw [setCol_path, hp]; exact hnp
      rw [if_neg h2, if_pos (show r.path ∈ p :: ps by rw [hp]; exact List.mem_cons_self _ _), hp]
    · rw [if_neg hp]
      by_cases hps : r.path ∈ ps
      · rw [if_pos hps, if_pos (List.mem_cons_of_mem _ hps)]
      · rw [if_neg hps, if_neg (by
          intro h
          rcases List.mem_cons.mp h with h | h
          · exact hp h
          · exact hps h)]

/-- Functional characterization of `_compute_hash`: one pass maps every
selected row to its updated version and leaves every other row alone. -/
theorem computePass_eq (w : HashWorld) (T : Table) (old new : Column) (pos : HashPos)
    (hpos : posOf new = some pos) (hnd : (pathsOf T).Nodup)
    (hsz : ∀ r ∈ sqlSelect T old new, r.size ≠ 0) :
    computePass w T old new
      = .ok (T.map (fun r =>
          if selPred T old new r = true
          then setCol r new (some (pyStr (w.ohash r.path pos))) else r)) := by
  unfold computePass
  rw [computePass_ok_of w new _ T pos hpos hsz]
  congr 1
  have h1 : (sqlSelect T old new).foldl (fun acc r =>
        updateFileHashes acc r.path new (pyStr (w.ohash r.path pos))) T
      = (pathsOf (sqlSelect T old new)).foldl (fun acc p =>
        updateFileHashes acc p new (pyStr (w.ohash p pos))) T := by
    unfold pathsOf
    rw [List.foldl_map]
  have hndsel : (pathsOf (sqlSelect T old new)).Nodup := by
    unfold pathsOf sqlSelect
    exact ((List.filter_sublist T).map FileRow.path).nodup hnd
  rw [h1, foldl_update_eq_map T _ hndsel]
  apply List.map_congr_left
  intro r hr
  have hmem : r.path ∈ pathsOf (sqlSelect T old new) ↔ selPred T old new r = true := by
    constructor
    · intro h
      obtain ⟨q, hq, hqp⟩ := List.mem_map.mp h
      have hq2 := List.mem_filter.mp hq
      have : q = r := row_eq_of_path_eq hnd hq2.1 hr hqp
      exact this ▸ hq2.2
    · intro h
      exact List.mem_map.mpr ⟨r, List.mem_filter.mpr ⟨hr, h⟩, rfl⟩
  by_cases hsel : selPred T old new r = true
  · rw [if_pos (hmem.mpr hsel), if_pos hsel]
  · rw [if_neg (fun h => hsel (hmem.mp h)), if_neg hsel]

theorem colVal_size (r : FileRow) : colVal Column.size r = some (HVal.int r.size) := rfl

theorem selPred_iff {T : Table} {old new : Column} {r : FileRow} :
    selPred T old new r = true ↔
      (∃ v, colVal old r = some v ∧ isInnerVal T old v = true) ∧ colVal new r = none := by
  unfold selPred
  cases h : colVal old r <;> simp [h]

theorem isInnerVal_iff {T : Table} {old : Column} {v : HVal} :
    isInnerVal T old v = true ↔
      2 ≤ (T.filter (fun q => decide (colVal old q = some v) && decide (0 < q.size))).length := by
  unfold isInnerVal
  exact decide_eq_true_iff

/-- Under the store invariant, pass 1 rewrites every `beg_hash` cell to its
canonical value. -/
theorem pass1_char (w : HashWorld) (cm : Bool) (T : Table)
    (hinv : storeInv w cm T) (hnd : (pathsOf T).Nodup) :
    computePass w T Column.size Column.beg_hash
      = .ok (T.map (fun r => { r with beg_hash := cBeg w (pathsOf T) r.path })) := by
  have hsz : ∀ r ∈ sqlSelect T Column.size Column.beg_hash, r.size ≠ 0 := by
    intro r hr
    have h := (List.mem_filter.mp hr).2
    rw [selPred_iff] at h
    obtain ⟨⟨v, hv, hvin⟩, _⟩ := h
    rw [colVal_size] at hv
    cases Option.some.inj hv
    rw [isInnerVal_iff] at hvin
    obtain ⟨q, _, hfq⟩ := exists_mem_of_two_le_filter hvin
    simp only [Bool.and_eq_true, decide_eq_true_eq] at hfq
    obtain ⟨hq1, hq2⟩ := hfq
    rw [colVal_size] at hq1
    have hq3 : q.size = r.size := HVal.int.inj (Option.some.inj hq1)
    omega
  rw [computePass_eq w T Column.size Column.beg_hash HashPos.beg rfl hnd hsz]
  congr 1
  apply List.map_congr_left
  intro r hr
  obtain ⟨hsize, hbeg, _, _, hzero⟩ := hinv r hr
  by_cases hsel : selPred T Column.size Column.beg_hash r = true
  · rw [if_pos hsel]
    rw [selPred_iff] at hsel
    obtain ⟨⟨v, hv, hvin⟩, _⟩ := hsel
    rw [colVal_size] at hv
    cases Option.some.inj hv
    rw [isInnerVal_iff] at hvin
    have hndrows : T.Nodup := hnd.of_map
    obtain ⟨q, hqT, hfq, hqr⟩ := exists_mem_ne_of_two_le_filter hndrows r hvin
    simp only [Bool.and_eq_true, decide_eq_true_eq] at hfq
    obtain ⟨hq1, hq2⟩ := hfq
    rw [colVal_size] at hq1
    have hq3 : q.size = r.size := HVal.int.inj (Option.some.inj hq1)
    have hqpath : q.path ≠ r.path := fun h => hqr (row_eq_of_path_eq hnd hqT hr h)
    have hq4 := (hinv q hqT).1
    have hpos : 0 < sizeW w r.path := by omega
    have hSC : SC w (pathsOf T) r.path :=
      ⟨hpos, q.path, List.mem_map.mpr ⟨q, hqT, rfl⟩, hqpath, by omega⟩
    have hc : cBeg w (pathsOf T) r.path = some (pyStr (w.ohash r.path HashPos.beg)) := by
      unfold cBeg
      rw [if_neg (by omega), if_pos hSC]
    show setCol r Column.beg_hash (some (pyStr (w.ohash r.path HashPos.beg)))
        = { r with beg_hash := cBeg w (pathsOf T) r.path }
    rw [hc]
    rfl
  · rw [if_neg hsel]
    by_cases hb : r.beg_hash = none
    · have hnin : ¬ isInnerVal T Column.size (HVal.int r.size) = true := by
        intro hin
        apply hsel
        rw [selPred_iff]
        refine ⟨⟨HVal.int r.size, colVal_size r, hin⟩, ?_⟩
        show r.beg_hash.map HVal.str = none
        rw [hb]
        rfl
      have hsz0 : r.size ≠ 0 := fun h => (hzero h).1 hb
      have hnSC : ¬ SC w (pathsOf T) r.path := by
        rintro ⟨h1, q, hqP, hqne, hqsz⟩
        obtain ⟨rq, hrqT, hrqp⟩ := List.mem_map.mp hqP
        apply hnin
        rw [isInnerVal_iff]
        have h5 : rq.size = sizeW w q := by rw [(hinv rq hrqT).1, hrqp]
        have h6 : rq.size = r.size := by omega
        refine two_le_length_of_mem_ne (a := r) (b := rq) ?_ ?_ ?_
        · rw [List.mem_filter]
          refine ⟨hr, ?_⟩
          simp only [Bool.and_eq_true, decide_eq_true_eq]
          exact ⟨colVal_size r, by omega⟩
        · rw [List.mem_filter]
          refine ⟨hrqT, ?_⟩
          simp only [Bool.and_eq_true, decide_eq_true_eq]
          refine ⟨?_, by omega⟩
          rw [colVal_size, h6]
        · intro h
          exact hqne (by rw [← hrqp, h])
      have hc : cBeg w (pathsOf T) r.path = none := by
        unfold cBeg
        rw [if_neg (by omega), if_neg hnSC]
      show r = { r with beg_hash := cBeg w (pathsOf T) r.path }
      rw [hc, ← hb]
    · rcases hbeg with h | h
      · exact absurd h hb
      · show r = { r with beg_hash := cBeg w (pathsOf T) r.path }
        rw [← h]

/-- Under the store invariant, pass 2 (on the pass-1 result) rewrites every
`rev_hash` cell to its canonical value. -/
theorem pass2_char (w : HashWorld) (cm : Bool) (T : Table)
    (hinv : storeInv w cm T) (hnd : (pathsOf T).Nodup) :
    computePass w (T.map (fun r => { r with beg_hash := cBeg w (pathsOf T) r.path }))
        Column.beg_hash Column.rev_hash
      = .ok (T.map (fun r =>
          { r with beg_hash := cBeg w (pathsOf T) r.path, rev_hash := cRev w (pathsOf T) r.path })) := by
  set P := pathsOf T with hP
  set TB := T.map (fun r => { r with beg_hash := cBeg w P r.path }) with hTB
  have hpaths : pathsOf TB = P := by
    rw [hTB, hP]
    exact pathsOf_map_keep (fun r => rfl)
  have hndB : (pathsOf TB).Nodup := by rw [hpaths]; exact hnd
  have hmemB : ∀ rb ∈ TB, ∃ r ∈ T, rb = { r with beg_hash := cBeg w P r.path } := by
    intro rb hrb
    obtain ⟨r, hr, heq⟩ := List.mem_map.mp hrb
    exact ⟨r, hr, heq.symm⟩
  have hsz : ∀ rb ∈ sqlSelect TB Column.beg_hash Column.rev_hash, rb.size ≠ 0 := by
    intro rb hrb
    have h := (List.mem_filter.mp hrb).2
    rw [selPred_iff] at h
    obtain ⟨_, hnew⟩ := h
    obtain ⟨r, hr, heq⟩ := hmemB rb (List.mem_filter.mp hrb).1
    have hrev : r.rev_hash = none := by
      have : rb.rev_hash = none := Option.map_eq_none'.mp hnew
      rw [heq] at this
      exact this
    intro h0
    have hr0 : r.size = 0 := by rw [heq] at h0; exact h0
    exact ((hinv r hr).2.2.2.2 hr0).2.1 hrev
  rw [computePass_eq w TB Column.beg_hash Column.rev_hash HashPos.rev rfl hndB hsz]
  congr 1
  rw [hTB, List.map_map]
  apply List.map_congr_left
  intro r hr
  simp only [Function.comp_apply]
  obtain ⟨hsize, _, hinvrev, _, hzero⟩ := hinv r hr
  set rb : FileRow := { r with beg_hash := cBeg w P r.path } with hrb
  have hrbmem : rb ∈ TB := by
    rw [hTB]
    exact List.mem_map.mpr ⟨r, hr, rfl⟩
  by_cases hsel : selPred TB Column.beg_hash Column.rev_hash rb = true
  · rw [if_pos hsel]
    rw [selPred_iff] at hsel
    obtain ⟨⟨v, hv, hvin⟩, hnew⟩ := hsel
    have hrev : r.rev_hash = none := Option.map_eq_none'.mp hnew
    have hr0 : r.size ≠ 0 := fun h0 => ((hzero h0).2.1 hrev)
    have hsz2 : sizeW w r.path ≠ 0 := by rw [← hsize]; exact hr0
    obtain ⟨s, hbs, hvs⟩ := Option.map_eq_some'.mp hv
    have hcbeg : cBeg w P r.path = some s := hbs
    have hSC : SC w P r.path := by
      by_contra hnsc
      unfold cBeg at hcbeg
      rw [if_neg hsz2, if_neg hnsc] at hcbeg
      exact Option.noConfusion hcbeg
    rw [isInnerVal_iff] at hvin
    have hndrows : TB.Nodup := hndB.of_map
    obtain ⟨qb, hqbT, hfqb, hqbne⟩ := exists_mem_ne_of_two_le_filter hndrows rb hvin
    simp only [Bool.and_eq_true, decide_eq_true_eq] at hfqb
    obtain ⟨hqb1, hqb2⟩ := hfqb
    obtain ⟨tq, htqT, htqeq⟩ := hmemB qb hqbT
    obtain ⟨t, hqbt, hvt⟩ := Option.map_eq_some'.mp hqb1
    have hts : t = s := HVal.str.inj (hvt.trans hvs.symm)
    have hqbeg : cBeg w P qb.path = some s := by
      have : qb.beg_hash = cBeg w P tq.path := by rw [htqeq]
      have hqp : qb.path = tq.path := by rw [htqeq]
      rw [hqp, ← this, hqbt, hts]
    have hqpath : qb.path ≠ r.path := by
      intro h
      apply hqbne
      exact row_eq_of_path_eq hndB hqbT hrbmem h
    have hqP : qb.path ∈ P := by
      rw [← hpaths]
      exact List.mem_map.mpr ⟨qb, hqbT, rfl⟩
    have hqsizew : 0 < sizeW w qb.path := by
      have h1 : qb.size = tq.size := by rw [htqeq]
      have h2 : qb.path = tq.path := by rw [htqeq]
      have h3 := (hinv tq htqT).1
      rw [h2, ← h3, ← h1]
      exact hqb2
    have hBC : BC w P r.path := by
      refine ⟨?_, by rw [hcbeg]; rfl, qb.path, hqP, hqpath, hqsizew, by rw [hqbeg, hcbeg]⟩
      rcases hSC with ⟨h1, _⟩
      exact h1
    have hcrev : cRev w P r.path = some (pyStr (w.ohash r.path HashPos.rev)) := by
      unfold cRev
      rw [if_neg hsz2, if_pos hBC]
    show setCol rb Column.rev_hash (some (pyStr (w.ohash rb.path HashPos.rev)))
        = { r with beg_hash := cBeg w P r.path, rev_hash := cRev w P r.path }
    rw [hcrev]
    rfl
  · rw [if_neg hsel]
    by_cases hrev : r.rev_hash = none
    · have hrbrev : colVal Column.rev_hash rb = none := by
        show rb.rev_hash.map HVal.str = none
        have : rb.rev_hash = r.rev_hash := rfl
        rw [this, hrev]
        rfl
      rcases hcb : cBeg w P r.path with _ | s
      · -- canonical beg is NULL: no beg-collision is possible
        have hsz2 : sizeW w r.path ≠ 0 := by
          intro h0
          unfold cBeg at hcb
          rw [if_pos h0] at hcb
          exact Option.noConfusion hcb
        have hnBC : ¬ BC w P r.path := by
          rintro ⟨_, hsome, _⟩
          rw [hcb] at hsome
          simp at hsome
        have hcrev : cRev w P r.path = none := by
          unfold cRev
          rw [if_neg hsz2, if_neg hnBC]
        rw [hcrev]
        show ({ r with beg_hash := cBeg w P r.path } : FileRow)
            = { r with beg_hash := none, rev_hash := none }
        rw [hcb, hrev]
      · -- beg cell present but not colliding
        have hr0 : r.size ≠ 0 := fun h0 => ((hzero h0).2.1 hrev)
        have hsz2 : sizeW w r.path ≠ 0 := by rw [← hsize]; exact hr0
        have hnin : ¬ isInnerVal TB Column.beg_hash (HVal.str s) = true := by
          intro hin
          apply hsel
          rw [selPred_iff]
          refine ⟨⟨HVal.str s, ?_, hin⟩, hrbrev⟩
          show rb.beg_hash.map HVal.str = some (HVal.str s)
          have : rb.beg_hash = cBeg w P r.path := rfl
          rw [this, hcb]
          rfl
        have hnBC : ¬ BC w P r.path := by
          rintro ⟨h1, _, q, hqP, hqne, hq0, hqeq⟩
          rw [← hpaths] at hqP
          obtain ⟨qb, hqbT, hqbp⟩ := List.mem_map.mp hqP
          obtain ⟨tq, htqT, htqeq⟩ := hmemB qb hqbT
          apply hnin
          rw [isInnerVal_iff]
          have hqbbeg : qb.beg_hash = some s := by
            have e1 : qb.beg_hash = cBeg w P tq.path := by rw [htqeq]
            have e2 : qb.path = tq.path := by rw [htqeq]
            rw [e1, ← e2, hqbp, hqeq, hcb]
          have hqbsz : 0 < qb.size := by
            have h1 : qb.size = tq.size := by rw [htqeq]
            have h2 : qb.path = tq.path := by rw [htqeq]
            have h3 := (hinv tq htqT).1
            rw [h1, h3, ← h2, hqbp]
            exact hq0
          have hrbsz : 0 < rb.size := by
            have hSC : SC w P r.path := by
              by_contra hnsc
              unfold cBeg at hcb
              rw [if_neg hsz2, if_neg hnsc] at hcb
              exact Option.noConfusion hcb
            have : rb.size = r.size := rfl
            rw [this, hsize]
            exact hSC.1
          refine two_le_length_of_mem_ne (a := rb) (b := qb) ?_ ?_ ?_
          · rw [List.mem_filter]
            refine ⟨hrbmem, ?_⟩
            simp only [Bool.and_eq_true, decide_eq_true_eq]
            refine ⟨?_, hrbsz⟩
            show rb.beg_hash.map HVal.str = some (HVal.str s)
            have : rb.beg_hash = cBeg w P r.path := rfl
            rw [this, hcb]
            rfl
          · rw [List.mem_filter]
            refine ⟨hqbT, ?_⟩
            simp only [Bool.and_eq_true, decide_eq_true_eq]
            refine ⟨?_, hqbsz⟩
            show qb.beg_hash.map HVal.str = some (HVal.str s)
            rw [hqbbeg]
            rfl
          · intro h
            apply hqne
            rw [← hqbp, ← h]
        have hcrev : cRev w P r.path = none := by
          unfold cRev
          rw [if_neg hsz2, if_neg hnBC]
        rw [hcrev]
        show ({ r with beg_hash := cBeg w P r.path } : FileRow)
            = { r with beg_hash := some s, rev_hash := none }
        rw [hcb, hrev]
    · rcases hinvrev with h | h
      · exact absurd h hrev
      · show ({ r with beg_hash := cBeg w P r.path } : FileRow)
            = { r with beg_hash := cBeg w P r.path, rev_hash := cRev w P r.path }
        rw [← h]

theorem except_bind_ok {α β : Type _} (x : α) (f : α → Except Unit β) :
    (Except.ok x >>= f) = f x := rfl

/-- Under the store invariant, pass 3 (in `complete_hash` mode, on the
pass-2 result) rewrites every `full_hash` cell to its canonical value. -/
theorem pass3_char (w : HashWorld) (T : Table)
    (hinv : storeInv w true T) (hnd : (pathsOf T).Nodup) :
    computePass w (T.map (fun r =>
        { r with beg_hash := cBeg w (pathsOf T) r.path, rev_hash := cRev w (pathsOf T) r.path }))
        Column.rev_hash Column.full_hash
      = .ok (T.map (fun r =>
          { r with
            beg_hash := cBeg w (pathsOf T) r.path
            rev_hash := cRev w (pathsOf T) r.path
            full_hash := cFull w true (pathsOf T) r.path })) := by
  set P := pathsOf T with hP
  set TC := T.map (fun r =>
    { r with beg_hash := cBeg w P r.path, rev_hash := cRev w P r.path }) with hTC
  have hpaths : pathsOf TC = P := by
    rw [hTC, hP]
    exact pathsOf_map_keep (fun r => rfl)
  have hndC : (pathsOf TC).Nodup := by rw [hpaths]; exact hnd
  have hmemC : ∀ rc ∈ TC, ∃ r ∈ T,
      rc = { r with beg_hash := cBeg w P r.path, rev_hash := cRev w P r.path } := by
    intro rc hrc
    obtain ⟨r, hr, heq⟩ := List.mem_map.mp hrc
    exact ⟨r, hr, heq.symm⟩
  have hsz : ∀ rc ∈ sqlSelect TC Column.rev_hash Column.full_hash, rc.size ≠ 0 := by
    intro rc hrc
    have h := (List.mem_filter.mp hrc).2
    rw [selPred_iff] at h
    obtain ⟨_, hnew⟩ := h
    obtain ⟨r, hr, heq⟩ := hmemC rc (List.mem_filter.mp hrc).1
    have hfull : r.full_hash = none := by
      have : rc.full_hash = none := Option.map_eq_none'.mp hnew
      rw [heq] at this
      exact this
    intro h0
    have hr0 : r.size = 0 := by rw [heq] at h0; exact h0
    exact ((hinv r hr).2.2.2.2 hr0).2.2 hfull
  rw [computePass_eq w TC Column.rev_hash Column.full_hash HashPos.full rfl hndC hsz]
  congr 1
  rw [hTC, List.map_map]
  apply List.map_congr_left
  intro r hr
  simp only [Function.comp_apply]
  obtain ⟨hsize, _, _, hinvfull, hzero⟩ := hinv r hr
  set rc : FileRow := { r with beg_hash := cBeg w P r.path, rev_hash := cRev w P r.path } with hrc
  have hrcmem : rc ∈ TC := by
    rw [hTC]
    exact List.mem_map.mpr ⟨r, hr, rfl⟩
  by_cases hsel : selPred TC Column.rev_hash Column.full_hash rc = true
  · rw [if_pos hsel]
    rw [selPred_iff] at hsel
    obtain ⟨⟨v, hv, hvin⟩, hnew⟩ := hsel
    have hfull : r.full_hash = none := Option.map_eq_none'.mp hnew
    have hr0 : r.size ≠ 0 := fun h0 => ((hzero h0).2.2 hfull)
    have hsz2 : sizeW w r.path ≠ 0 := by rw [← hsize]; exact hr0
    obtain ⟨s, hbs, hvs⟩ := Option.map_eq_some'.mp hv
    have hcrev : cRev w P r.path = some s := hbs
    have hBC : BC w P r.path := by
      by_contra hnbc
      unfold cRev at hcrev
      rw [if_neg hsz2, if_neg hnbc] at hcrev
      exact Option.noConfusion hcrev
    rw [isInnerVal_iff] at hvin
    have hndrows : TC.Nodup := hndC.of_map
    obtain ⟨qc, hqcT, hfqc, hqcne⟩ := exists_mem_ne_of_two_le_filter hndrows rc hvin
    simp only [Bool.and_eq_true, decide_eq_true_eq] at hfqc
    obtain ⟨hqc1, hqc2⟩ := hfqc
    obtain ⟨tq, htqT, htqeq⟩ := hmemC qc hqcT
    obtain ⟨t, hqct, hvt⟩ := Option.map_eq_some'.mp hqc1
    have hts : t = s := HVal.str.inj (hvt.trans hvs.symm)
    have hqrev : cRev w P qc.path = some s := by
      have e1 : qc.rev_hash = cRev w P tq.path := by rw [htqeq]
      have e2 : qc.path = tq.path := by rw [htqeq]
      rw [e2, ← e1, hqct, hts]
    have hqpath : qc.path ≠ r.path := by
      intro h
      apply hqcne
      exact row_eq_of_path_eq hndC hqcT hrcmem h
    have hqP : qc.path ∈ P := by
      rw [← hpaths]
      exact List.mem_map.mpr ⟨qc, hqcT, rfl⟩
    have hqsizew : 0 < sizeW w qc.path := by
      have h1 : qc.size = tq.size := by rw [htqeq]
      have h2 : qc.path = tq.path := by rw [htqeq]
      have h3 := (hinv tq htqT).1
      rw [h2, ← h3, ← h1]
      exact hqc2
    have hFC : FC w P r.path := by
      refine ⟨hBC.1, by rw [hcrev]; rfl, qc.path, hqP, hqpath, hqsizew, by rw [hqrev, hcrev]⟩
    have hcfull : cFull w true P r.path = some (pyStr (w.ohash r.path HashPos.full)) := by
      unfold cFull
      rw [if_neg hsz2, if_pos ⟨rfl, hFC⟩]
    show setCol rc Column.full_hash (some (pyStr (w.ohash rc.path HashPos.full)))
        = { r with
              beg_hash := cBeg w P r.path
              rev_hash := cRev w P r.path
              full_hash := cFull w true P r.path }
    rw [hcfull]
    rfl
  · rw [if_neg hsel]
    by_cases hfull : r.full_hash = none
    · have hrcfull : colVal Column.full_hash rc = none := by
        show rc.full_hash.map HVal.str = none
        have : rc.full_hash = r.full_hash := rfl
        rw [this, hfull]
        rfl
      rcases hcr : cRev w P r.path with _ | s
      · have hsz2 : sizeW w r.path ≠ 0 := by
          intro h0
          unfold cRev at hcr
          rw [if_pos h0] at hcr
          exact Option.noConfusion hcr
        have hnFC : ¬ FC w P r.path := by
          rintro ⟨_, hsome, _⟩
          rw [hcr] at hsome
          simp at hsome
        have hcfull : cFull w true P r.path = none := by
          unfold cFull
          rw [if_neg hsz2, if_neg (fun h => hnFC h.2)]
        rw [hcfull]
        show ({ r with beg_hash := cBeg w P r.path, rev_hash := cRev w P r.path } : FileRow)
            = { r with beg_hash := cBeg w P r.path, rev_hash := none, full_hash := none }
        rw [hcr, hfull]
      · have hr0 : r.size ≠ 0 := fun h0 => ((hzero h0).2.2 hfull)
        have hsz2 : sizeW w r.path ≠ 0 := by rw [← hsize]; exact hr0
        have hnin : ¬ isInnerVal TC Column.rev_hash (HVal.str s) = true := by
          intro hin
          apply hsel
          rw [selPred_iff]
          refine ⟨⟨HVal.str s, ?_, hin⟩, hrcfull⟩
          show rc.rev_hash.map HVal.str = some (HVal.str s)
          have : rc.rev_hash = cRev w P r.path := rfl
          rw [this, hcr]
          rfl
        have hnFC : ¬ FC w P r.path := by
          rintro ⟨h1, _, q, hqP, hqne, hq0, hqeq⟩
          rw [← hpaths] at hqP
          obtain ⟨qc, hqcT, hqcp⟩ := List.mem_map.mp hqP
          obtain ⟨tq, htqT, htqeq⟩ := hmemC qc hqcT
          apply hnin
          rw [isInnerVal_iff]
          have hqcrev : qc.rev_hash = some s := by
            have e1 : qc.rev_hash = cRev w P tq.path := by rw [htqeq]
            have e2 : qc.path = tq.path := by rw [htqeq]
            rw [e1, ← e2, hqcp, hqeq, hcr]
          have hqcsz : 0 < qc.size := by
            have h1 : qc.size = tq.size := by rw [htqeq]
            have h2 : qc.path = tq.path := by rw [htqeq]
            have h3 := (hinv tq htqT).1
            rw [h1, h3, ← h2, hqcp]
            exact hq0
          have hrcsz : 0 < rc.size := by
            have hBC : BC w P r.path := by
              by_contra hnbc
              unfold cRev at hcr
              rw [if_neg hsz2, if_neg hnbc] at hcr
              exact Option.noConfusion hcr
            have : rc.size = r.size := rfl
            rw [this, hsize]
            exact hBC.1
          refine two_le_length_of_mem_ne (a := rc) (b := qc) ?_ ?_ ?_
          · rw [List.mem_filter]
            refine ⟨hrcmem, ?_⟩
            simp only [Bool.and_eq_true, decide_eq_true_eq]
            refine ⟨?_, hrcsz⟩
            show rc.rev_hash.map HVal.str = some (HVal.str s)
            have : rc.rev_hash = cRev w P r.path := rfl
            rw [this, hcr]
            rfl
          · rw [List.mem_filter]
            refine ⟨hqcT, ?_⟩
            simp only [Bool.and_eq_true, decide_eq_true_eq]
            refine ⟨?_, hqcsz⟩
            show qc.rev_hash.map HVal.str = some (HVal.str s)
            rw [hqcrev]
            rfl
          · intro h
            apply hqne
            rw [← hqcp, ← h]
        have hcfull : cFull w true P r.path = none := by
          unfold cFull
          rw [if_neg hsz2, if_neg (fun h => hnFC h.2)]
        rw [hcfull]
        show ({ r with beg_hash := cBeg w P r.path, rev_hash := cRev w P r.path } : FileRow)
            = { r with beg_hash := cBeg w P r.path, rev_hash := some s, full_hash := none }
        rw [hcr, hfull]
    · rcases hinvfull with h | h
      · exact absurd h hfull
      · show ({ r with beg_hash := cBeg w P r.path, rev_hash := cRev w P r.path } : FileRow)
            = { r with
                  beg_hash := cBeg w P r.path
                  rev_hash := cRev w P r.path
                  full_hash := cFull w true P r.path }
        rw [← h]

theorem except_pure_eq {α : Type _} (x : α) : (pure x : Except Unit α) = Except.ok x := rfl

/-- Normal form of `_compute_hashes`: on a consistent store the result is
the canonical table determined by the world and the stored path set. -/
theorem computeHashes_canon (w : HashWorld) (cm : Bool) (T : Table)
    (hinv : storeInv w cm T) (hnd : (pathsOf T).Nodup) :
    computeHashes w cm T = .ok (T.map (fun r => canonRow w cm (pathsOf T) r.path)) := by
  unfold computeHashes
  rw [pass1_char w cm T hinv hnd, except_bind_ok, pass2_char w cm T hinv hnd, except_bind_ok]
  cases cm with
  | true =>
    rw [if_pos rfl, pass3_char w T hinv hnd]
    congr 1
    apply List.map_congr_left
    intro r hr
    obtain ⟨hsize, _, _, _, _⟩ := hinv r hr
    unfold canonRow
    rw [← hsize]
  | false =>
    rw [if_neg Bool.false_ne_true, except_pure_eq]
    congr 1
    apply List.map_congr_left
    intro r hr
    obtain ⟨hsize, _, _, hinvfull, hzero⟩ := hinv r hr
    have hf : r.full_hash = cFull w false (pathsOf T) r.path := by
      rcases hinvfull with h | h
      · have hsz0 : r.size ≠ 0 := fun h0 => (hzero h0).2.2 h
        unfold cFull
        rw [if_neg (show ¬ sizeW w r.path = 0 by rw [← hsize]; exact hsz0),
          if_neg (fun hh => Bool.false_ne_true hh.1)]
        exact h
      · exact h
    unfold canonRow
    rw [← hsize, ← hf]

/-! ### Monotonicity of the canonical cells under population growth -/

theorem SC_mono {w : HashWorld} {P Q : List String} {p : String}
    (hsub : ∀ x ∈ P, x ∈ Q) (h : SC w P p) : SC w Q p := by
  obtain ⟨h1, q, hq, hqne, hqs⟩ := h
  exact ⟨h1, q, hsub q hq, hqne, hqs⟩

theorem cBeg_mono {w : HashWorld} {P Q : List String} {p : String} {v : String}
    (hsub : ∀ x ∈ P, x ∈ Q) (h : cBeg w P p = some v) : cBeg w Q p = some v := by
  unfold cBeg at h ⊢
  by_cases h0 : sizeW w p = 0
  · rw [if_pos h0] at h ⊢; exact h
  · rw [if_neg h0] at h ⊢
    by_cases hsc : SC w P p
    · rw [if_pos hsc] at h
      rw [if_pos (SC_mono hsub hsc)]
      exact h
    · rw [if_neg hsc] at h
      exact Option.noConfusion h

theorem BC_mono {w : HashWorld} {P Q : List String} {p : String}
    (hsub : ∀ x ∈ P, x ∈ Q) (h : BC w P p) : BC w Q p := by
  obtain ⟨h1, h2, q, hq, hqne, hq0, hqeq⟩ := h
  obtain ⟨v, hv⟩ := Option.isSome_iff_exists.mp h2
  have hv2 : cBeg w Q p = some v := cBeg_mono hsub hv
  have hqv : cBeg w P q = some v := by rw [hqeq, hv]
  refine ⟨h1, by rw [hv2]; rfl, q, hsub q hq, hqne, hq0, ?_⟩
  rw [cBeg_mono hsub hqv, hv2]

theorem cRev_mono {w : HashWorld} {P Q : List String} {p : String} {v : String}
    (hsub : ∀ x ∈ P, x ∈ Q) (h : cRev w P p = some v) : cRev w Q p = some v := by
  unfold cRev at h ⊢
  by_cases h0 : sizeW w p = 0
  · rw [if_pos h0] at h ⊢; exact h
  · rw [if_neg h0] at h ⊢
    by_cases hbc : BC w P p
    · rw [if_pos hbc] at h
      rw [if_pos (BC_mono hsub hbc)]
      exact h
    · rw [if_neg hbc] at h
      exact Option.noConfusion h

theorem FC_mono {w : HashWorld} {P Q : List String} {p : String}
    (hsub : ∀ x ∈ P, x ∈ Q) (h : FC w P p) : FC w Q p := by
  obtain ⟨h1, h2, q, hq, hqne, hq0, hqeq⟩ := h
  obtain ⟨v, hv⟩ := Option.isSome_iff_exists.mp h2
  have hv2 : cRev w Q p = some v := cRev_mono hsub hv
  have hqv : cRev w P q = some v := by rw [hqeq, hv]
  refine ⟨h1, by rw [hv2]; rfl, q, hsub q hq, hqne, hq0, ?_⟩
  rw [cRev_mono hsub hqv, hv2]

theorem cFull_mono {w : HashWorld} {cm : Bool} {P Q : List String} {p : String} {v : String}
    (hsub : ∀ x ∈ P, x ∈ Q) (h : cFull w cm P p = some v) : cFull w cm Q p = some v := by
  unfold cFull at h ⊢
  by_cases h0 : sizeW w p = 0
  · rw [if_pos h0] at h ⊢; exact h
  · rw [if_neg h0] at h ⊢
    by_cases hfc : cm = true ∧ FC w P p
    · rw [if_pos hfc] at h
      rw [if_pos ⟨hfc.1, FC_mono hsub hfc.2⟩]
      exact h
    · rw [if_neg hfc] at h
      exact Option.noConfusion h

/-! ### Rows and paths through `_copy_data` -/

theorem copyData_mem_rec {src : Table} :
    ∀ {dst : Table} {r : FileRow}, r ∈ copyData dst src → r ∈ dst ∨ r ∈ src := by
  induction src with
  | nil => intro dst r h; exact Or.inl h
  | cons s src ih =>
    intro dst r h
    unfold copyData at h
    rw [List.foldl_cons] at h
    rcases ih h with h2 | h2
    · by_cases hc : dst.any (fun q => decide (q.path = s.path)) = true
      · rw [if_pos hc] at h2
        exact Or.inl h2
      · rw [if_neg hc] at h2
        rcases List.mem_append.mp h2 with h3 | h3
        · exact Or.inl h3
        · right
          rw [show r = s by simpa using h3]
          exact List.mem_cons_self _ _
    · exact Or.inr (List.mem_cons_of_mem _ h2)

theorem copyData_mem_dst {src : Table} :
    ∀ {dst : Table} {r : FileRow}, r ∈ dst → r ∈ copyData dst src := by
  induction src with
  | nil => intro dst r h; exact h
  | cons s src ih =>
    intro dst r h
    unfold copyData
    rw [List.foldl_cons]
    apply ih
    by_cases hc : dst.any (fun q => decide (q.path = s.path)) = true
    · rw [if_pos hc]; exact h
    · rw [if_neg hc]; exact List.mem_append.mpr (Or.inl h)

theorem copyData_path_src {src : Table} :
    ∀ {dst : Table} {p : String}, p ∈ pathsOf src → p ∈ pathsOf (copyData dst src) := by
  induction src with
  | nil => intro dst p h; exact absurd h (by simp [pathsOf])
  | cons s src ih =>
    intro dst p h
    unfold copyData
    rw [List.foldl_cons]
    rcases List.mem_cons.mp h with h2 | h2
    · -- p is the head row's path
      by_cases hc : dst.any (fun q => decide (q.path = s.path)) = true
      · rw [if_pos hc]
        obtain ⟨q, hq, hqp⟩ := List.any_eq_true.mp hc
        have hqp2 : q.path = s.path := of_decide_eq_true hqp
        have hqm : q ∈ copyData dst src := copyData_mem_dst hq
        rw [h2]
        show s.path ∈ pathsOf (copyData dst src)
        rw [← hqp2]
        exact List.mem_map.mpr ⟨q, hqm, rfl⟩
      · rw [if_neg hc]
        have : s ∈ dst ++ [s] := List.mem_append.mpr (Or.inr (List.mem_cons_self _ _))
        rw [h2]
        exact List.mem_map.mpr ⟨s, copyData_mem_dst this, rfl⟩
    · exact ih h2

theorem copyData_path_dst {src : Table} {dst : Table} {p : String}
    (h : p ∈ pathsOf dst) : p ∈ pathsOf (copyData dst src) := by
  obtain ⟨r, hr, hrp⟩ := List.mem_map.mp h
  exact List.mem_map.mpr ⟨r, copyData_mem_dst hr, hrp⟩

theorem copyData_nodup {src : Table} :
    ∀ {dst : Table}, (pathsOf dst).Nodup → (pathsOf (copyData dst src)).Nodup := by
  induction src with
  | nil => intro dst h; exact h
  | cons s src ih =>
    intro dst h
    unfold copyData
    rw [List.foldl_cons]
    apply ih
    by_cases hc : dst.any (fun q => decide (q.path = s.path)) = true
    · rw [if_pos hc]; exact h
    · rw [if_neg hc]
      have hnp : s.path ∉ pathsOf dst := by
        intro hmem
        obtain ⟨q, hq, hqp⟩ := List.mem_map.mp hmem
        apply hc
        rw [List.any_eq_true]
        exact ⟨q, hq, by rw [decide_eq_true_eq]; exact hqp⟩
      show (pathsOf (dst ++ [s])).Nodup
      unfold pathsOf
      rw [List.map_append]
      simp only [List.map_cons, List.map_nil]
      rw [List.nodup_append]
      exact ⟨h, List.nodup_singleton _, by
        intro x hx hxs
        rcases List.mem_singleton.mp hxs with rfl
        exact hnp hx⟩

/-! ### Transport of the store invariant through `_copy_data` -/

theorem cell_transport_beg {w : HashWorld} {P Q : List String} {p : String} {o : Option String}
    (hsub : ∀ x ∈ P, x ∈ Q) (h : o = none ∨ o = cBeg w P p) : o = none ∨ o = cBeg w Q p := by
  rcases h with h | h
  · exact Or.inl h
  · rcases ho : o with _ | v
    · exact Or.inl rfl
    · right
      rw [ho] at h
      exact (cBeg_mono hsub h.symm).symm

theorem cell_transport_rev {w : HashWorld} {P Q : List String} {p : String} {o : Option String}
    (hsub : ∀ x ∈ P, x ∈ Q) (h : o = none ∨ o = cRev w P p) : o = none ∨ o = cRev w Q p := by
  rcases h with h | h
  · exact Or.inl h
  · rcases ho : o with _ | v
    · exact Or.inl rfl
    · right
      rw [ho] at h
      exact (cRev_mono hsub h.symm).symm

theorem cell_transport_full {w : HashWorld} {cm : Bool} {P Q : List String} {p : String}
    {o : Option String} (hsub : ∀ x ∈ P, x ∈ Q) (h : o = none ∨ o = cFull w cm P p) :
    o = none ∨ o = cFull w cm Q p := by
  rcases h with h | h
  · exact Or.inl h
  · rcases ho : o with _ | v
    · exact Or.inl rfl
    · right
      rw [ho] at h
      exact (cFull_mono hsub h.symm).symm

theorem storeInv_copyData (w : HashWorld) (cm : Bool) {dst src : Table}
    (hd : storeInv w cm dst) (hs : storeInv w cm src) : storeInv w cm (copyData dst src) := by
  intro r hr
  have hsubd : ∀ x ∈ pathsOf dst, x ∈ pathsOf (copyData dst src) :=
    fun x hx => copyData_path_dst hx
  have hsubs : ∀ x ∈ pathsOf src, x ∈ pathsOf (copyData dst src) :=
    fun x hx => copyData_path_src hx
  rcases copyData_mem_rec hr with h | h
  · obtain ⟨h1, h2, h3, h4, h5⟩ := hd r h
    exact ⟨h1, cell_transport_beg hsubd h2, cell_transport_rev hsubd h3,
      cell_transport_full hsubd h4, h5⟩
  · obtain ⟨h1, h2, h3, h4, h5⟩ := hs r h
    exact ⟨h1, cell_transport_beg hsubs h2, cell_transport_rev hsubs h3,
      cell_transport_full hsubs h4, h5⟩

theorem storeInv_nil (w : HashWorld) (cm : Bool) : storeInv w cm [] := by
  intro r hr
  cases hr

theorem storeInv_foldl (w : HashWorld) (cm : Bool) (stores : List Table) :
    ∀ {init : Table}, storeInv w cm init → (∀ S ∈ stores, storeInv w cm S) →
      storeInv w cm (stores.foldl copyData init) := by
  induction stores with
  | nil => intro init h _; exact h
  | cons S stores ih =>
    intro init hinit hst
    rw [List.foldl_cons]
    exact ih (storeInv_copyData w cm hinit (hst S (List.mem_cons_self _ _)))
      (fun S2 h2 => hst S2 (List.mem_cons_of_mem _ h2))

theorem nodup_foldl_copyData (stores : List Table) :
    ∀ {init : Table}, (pathsOf init).Nodup → (pathsOf (stores.foldl copyData init)).Nodup := by
  induction stores with
  | nil => intro init h; exact h
  | cons S stores ih =>
    intro init h
    rw [List.foldl_cons]
    exact ih (copyData_nodup h)

/-! ### The canonical table is a fixpoint -/

theorem pathsOf_canonTable (w : HashWorld) (cm : Bool) (L : List String) :
    pathsOf (L.map (canonRow w cm L)) = L := by
  unfold pathsOf
  rw [List.map_map]
  apply List.map_id''
  intro p
  rfl

theorem storeInv_canonTable (w : HashWorld) (cm : Bool) (L : List String) :
    storeInv w cm (L.map (canonRow w cm L)) := by
  intro r hr
  obtain ⟨p, hp, rfl⟩ := List.mem_map.mp hr
  rw [pathsOf_canonTable]
  refine ⟨rfl, Or.inr rfl, Or.inr rfl, Or.inr rfl, ?_⟩
  intro h0
  have h0p : sizeW w p = 0 := h0
  refine ⟨?_, ?_, ?_⟩
  · show cBeg w L p ≠ none
    unfold cBeg
    rw [if_pos h0p]
    exact fun h => Option.noConfusion h
  · show cRev w L p ≠ none
    unfold cRev
    rw [if_pos h0p]
    exact fun h => Option.noConfusion h
  · show cFull w cm L p ≠ none
    unfold cFull
    rw [if_pos h0p]
    exact fun h => Option.noConfusion h

theorem computeHashes_canon_fix (w : HashWorld) (cm : Bool) (L : List String) (hnd : L.Nodup) :
    computeHashes w cm (L.map (canonRow w cm L)) = .ok (L.map (canonRow w cm L)) := by
  rw [computeHashes_canon w cm _ (storeInv_canonTable w cm L)
    (by rw [pathsOf_canonTable]; exact hnd)]
  congr 1
  rw [List.map_map]
  apply List.map_congr_left
  intro p hp
  show canonRow w cm (pathsOf (L.map (canonRow w cm L))) ((canonRow w cm L p).path)
      = canonRow w cm L p
  rw [pathsOf_canonTable]
  rfl

/-! ### Canonical tables over equal path sets agree -/

theorem SC_congr {w : HashWorld} {P Q : List String} {p : String}
    (h : ∀ x, x ∈ P ↔ x ∈ Q) : SC w P p ↔ SC w Q p := by
  constructor
  · exact SC_mono (fun x hx => (h x).mp hx)
  · exact SC_mono (fun x hx => (h x).mpr hx)

theorem cBeg_congr {w : HashWorld} {P Q : List String} (p : String)
    (h : ∀ x, x ∈ P ↔ x ∈ Q) : cBeg w P p = cBeg w Q p := by
  unfold cBeg
  by_cases h0 : sizeW w p = 0
  · rw [if_pos h0, if_pos h0]
  · rw [if_neg h0, if_neg h0]
    by_cases hsc : SC w P p
    · rw [if_pos hsc, if_pos ((SC_congr h).mp hsc)]
    · rw [if_neg hsc, if_neg (fun hq => hsc ((SC_congr h).mpr hq))]

theorem BC_congr {w : HashWorld} {P Q : List String} {p : String}
    (h : ∀ x, x ∈ P ↔ x ∈ Q) : BC w P p ↔ BC w Q p := by
  constructor
  · exact BC_mono (fun x hx => (h x).mp hx)
  · exact BC_mono (fun x hx => (h x).mpr hx)

theorem cRev_congr {w : HashWorld} {P Q : List String} (p : String)
    (h : ∀ x, x ∈ P ↔ x ∈ Q) : cRev w P p = cRev w Q p := by
  unfold cRev
  by_cases h0 : sizeW w p = 0
  · rw [if_pos h0, if_pos h0]
  · rw [if_neg h0, if_neg h0]
    by_cases hbc : BC w P p
    · rw [if_pos hbc, if_pos ((BC_congr h).mp hbc)]
    · rw [if_neg hbc, if_neg (fun hq => hbc ((BC_congr h).mpr hq))]

theorem FC_congr {w : HashWorld} {P Q : List String} {p : String}
    (h : ∀ x, x ∈ P ↔ x ∈ Q) : FC w P p ↔ FC w Q p := by
  constructor
  · exact FC_mono (fun x hx => (h x).mp hx)
  · exact FC_mono (fun x hx => (h x).mpr hx)

theorem cFull_congr {w : HashWorld} {cm : Bool} {P Q : List String} (p : String)
    (h : ∀ x, x ∈ P ↔ x ∈ Q) : cFull w cm P p = cFull w cm Q p := by
  unfold cFull
  by_cases h0 : sizeW w p = 0
  · rw [if_pos h0, if_pos h0]
  · rw [if_neg h0, if_neg h0]
    by_cases hfc : cm = true ∧ FC w P p
    · rw [if_pos hfc, if_pos ⟨hfc.1, (FC_congr h).mp hfc.2⟩]
    · rw [if_neg hfc, if_neg (fun hq => hfc ⟨hq.1, (FC_congr h).mpr hq.2⟩)]

theorem canonRow_congr {w : HashWorld} {cm : Bool} {P Q : List String} (p : String)
    (h : ∀ x, x ∈ P ↔ x ∈ Q) : canonRow w cm P p = canonRow w cm Q p := by
  unfold canonRow
  rw [cBeg_congr p h, cRev_congr p h, cFull_congr p h]

theorem findRow_map {g : String → FileRow} (hg : ∀ q, (g q).path = q) (M : List String)
    (p : String) : findRow (M.map g) p = if p ∈ M then some (g p) else none := by
  induction M with
  | nil => simp [findRow]
  | cons q M ih =>
    rw [List.map_cons]
    unfold findRow at ih ⊢
    by_cases hq : q = p
    · rw [List.find?_cons_of_pos _ (by rw [hg q, decide_eq_true_eq]; exact hq)]
      rw [if_pos (by rw [hq]; exact List.mem_cons_self _ _), hq]
    · rw [List.find?_cons_of_neg _ (by rw [hg q]; simp only [decide_eq_true_eq]; exact hq)]
      rw [ih]
      by_cases hp : p ∈ M
      · rw [if_pos hp, if_pos (List.mem_cons_of_mem _ hp)]
      · rw [if_neg hp, if_neg (by
          intro h
          rcases List.mem_cons.mp h with h | h
          · exact hq h.symm
          · exact hp h)]

theorem sameGroup_canonTable (w : HashWorld) (cm : Bool) (c : Column) (L1 L2 : List String)
    (hset : ∀ x, x ∈ L1 ↔ x ∈ L2) (p q : String) :
    sameGroup (L1.map (canonRow w cm L1)) c p q
      = sameGroup (L2.map (canonRow w cm L2)) c p q := by
  have hcol : ∀ x, colOf (L1.map (canonRow w cm L1)) c x
      = colOf (L2.map (canonRow w cm L2)) c x := by
    intro x
    unfold colOf
    rw [findRow_map (fun y => rfl) L1, findRow_map (fun y => rfl) L2]
    by_cases hx : x ∈ L1
    · rw [if_pos hx, if_pos ((hset x).mp hx), canonRow_congr x hset]
    · rw [if_neg hx, if_neg (fun h => hx ((hset x).mpr h))]
  unfold sameGroup
  rw [hcol p, hcol q]

/-! ### Totality of the pipeline: `get_hash` is never called on a 0-size file -/

/-- Zero-size rows always carry non-null later-stage hashes (they are
inserted fully hashed by `_insert_files_empty_batch`). -/
def zeroFilled (T : Table) : Prop :=
  ∀ r ∈ T, r.size = 0 → r.rev_hash ≠ none ∧ r.full_hash ≠ none

theorem analyzeRows_eq (w : HashWorld) (files : List String) :
    analyzeRows w files = files.map (fun p =>
      if sizeW w p = 0 then zeroRow p else ⟨p, sizeW w p, none, none, none⟩) := by
  unfold analyzeRows
  apply List.map_congr_left
  intro p _
  unfold sizeW
  rcases w.osize p with _ | sz
  · show (⟨p, -1, none, none, none⟩ : FileRow)
        = if (-1 : Int) = 0 then zeroRow p else ⟨p, -1, none, none, none⟩
    rw [if_neg (by decide)]
  · rfl

theorem pathsOf_analyzeRows (w : HashWorld) (files : List String) :
    pathsOf (analyzeRows w files) = files := by
  rw [analyzeRows_eq]
  unfold pathsOf
  rw [List.map_map]
  apply List.map_id''
  intro p
  by_cases h : sizeW w p = 0
  · simp only [Function.comp_apply, if_pos h]
    rfl
  · simp only [Function.comp_apply, if_neg h]

theorem storeInv_analyzeRows (w : HashWorld) (cm : Bool) (files : List String) :
    storeInv w cm (analyzeRows w files) := by
  rw [analyzeRows_eq]
  intro r hr
  obtain ⟨p, hp, heq⟩ := List.mem_map.mp hr
  by_cases h0 : sizeW w p = 0
  · rw [if_pos h0] at heq
    cases heq
    refine ⟨h0.symm, Or.inr ?_, Or.inr ?_, Or.inr ?_, fun _ => ?_⟩
    · show some zeroHash = cBeg w _ p
      unfold cBeg
      rw [if_pos h0]
    · show some zeroHash = cRev w _ p
      unfold cRev
      rw [if_pos h0]
    · show some zeroHash = cFull w cm _ p
      unfold cFull
      rw [if_pos h0]
    · exact ⟨fun h => Option.noConfusion h, fun h => Option.noConfusion h,
        fun h => Option.noConfusion h⟩
  · rw [if_neg h0] at heq
    cases heq
    exact ⟨rfl, Or.inl rfl, Or.inl rfl, Or.inl rfl, fun h => absurd h h0⟩

theorem zeroFilled_analyzeRows (w : HashWorld) (files : List String) :
    zeroFilled (analyzeRows w files) := by
  rw [analyzeRows_eq]
  intro r hr h0
  obtain ⟨p, hp, heq⟩ := List.mem_map.mp hr
  by_cases hz : sizeW w p = 0
  · rw [if_pos hz] at heq
    cases heq
    exact ⟨fun h => Option.noConfusion h, fun h => Option.noConfusion h⟩
  · rw [if_neg hz] at heq
    cases heq
    exact absurd h0 hz

theorem zeroFilled_update {T : Table} {p : String} {c : Column} {h : String}
    (hzf : zeroFilled T) : zeroFilled (updateFileHashes T p c h) := by
  intro r hr h0
  unfold updateFileHashes at hr
  obtain ⟨q, hq, heq⟩ := List.mem_map.mp hr
  by_cases hp : q.path = p
  · rw [if_pos hp] at heq
    cases heq
    have h0q : q.size = 0 := by rw [setCol_size] at h0; exact h0
    have hzq := hzf q hq h0q
    cases c
    · exact hzq
    · exact hzq
    · exact ⟨fun hh => Option.noConfusion hh, hzq.2⟩
    · exact ⟨hzq.1, fun hh => Option.noConfusion hh⟩
  · rw [if_neg hp] at heq
    rw [← heq] at h0 ⊢
    exact hzf q hq h0

theorem zeroFilled_foldl_update (w : HashWorld) (new : Column) (pos : HashPos) (S : Table) :
    ∀ {T : Table}, zeroFilled T → zeroFilled (S.foldl (fun acc r =>
      updateFileHashes acc r.path new (pyStr (w.ohash r.path pos))) T) := by
  induction S with
  | nil => intro T h; exact h
  | cons s S ih =>
    intro T h
    rw [List.foldl_cons]
    exact ih (zeroFilled_update h)

theorem computePass_total (w : HashWorld) (T : Table) (old new : Column) (pos : HashPos)
    (hpos : posOf new = some pos) (hsz : ∀ r ∈ sqlSelect T old new, r.size ≠ 0)
    (hzf : zeroFilled T) :
    ∃ T1, computePass w T old new = .ok T1 ∧ zeroFilled T1 := by
  unfold computePass
  rw [computePass_ok_of w new (sqlSelect T old new) T pos hpos hsz]
  exact ⟨_, rfl, zeroFilled_foldl_update w new pos _ hzf⟩

/-- In pass 1 every selected row has positive size (the inner query
restricts colliding sizes to `size > 0`). -/
theorem sel_size_ne_zero_pass1 (T : Table) :
    ∀ r ∈ sqlSelect T Column.size Column.beg_hash, r.size ≠ 0 := by
  intro r hr
  have h := (List.mem_filter.mp hr).2
  rw [selPred_iff] at h
  obtain ⟨⟨v, hv, hvin⟩, _⟩ := h
  rw [colVal_size] at hv
  cases Option.some.inj hv
  rw [isInnerVal_iff] at hvin
  obtain ⟨q, _, hfq⟩ := exists_mem_of_two_le_filter hvin
  simp only [Bool.and_eq_true, decide_eq_true_eq] at hfq
  obtain ⟨hq1, hq2⟩ := hfq
  rw [colVal_size] at hq1
  have hq3 : q.size = r.size := HVal.int.inj (Option.some.inj hq1)
  omega

/-- In passes 2 and 3 every selected row has nonzero size, because its
target column is still NULL while 0-size rows were inserted with all
hash columns filled. -/
theorem sel_size_ne_zero_zf {T : Table} {old new : Column} (hzf : zeroFilled T)
    (hnew : new = Column.rev_hash ∨ new = Column.full_hash) :
    ∀ r ∈ sqlSelect T old new, r.size ≠ 0 := by
  intro r hr h0
  have h := (List.mem_filter.mp hr).2
  rw [selPred_iff] at h
  obtain ⟨_, hnew2⟩ := h
  have hz := hzf r (List.mem_filter.mp hr).1 h0
  rcases hnew with h | h <;> subst h
  · exact hz.1 (Option.map_eq_none'.mp hnew2)
  · exact hz.2 (Option.map_eq_none'.mp hnew2)

/-- C10: the `filesize == 0` branch of `DupeAnalysis.get_hash` (which
would raise `NameError` by referencing `self.zero_hash` in a static
method) is unreachable under the pipeline's invocation discipline: every
`_compute_hash` pass of every `analyze` run selects only rows of nonzero
size, so the whole run returns a table instead of crashing.  Crashes are
modelled as `.error`, so totality of `analyze` is exactly the
unreachability of that branch. -/
theorem C10_get_hash_zero_branch_unreachable (w : HashWorld) (cm : Bool) (files : List String) :
    ∃ T, DupeAnalysis.analyze w cm files = .ok T := by
  unfold DupeAnalysis.analyze computeHashes
  have hzf0 := zeroFilled_analyzeRows w files
  obtain ⟨T1, h1, hzf1⟩ := computePass_total w _ Column.size Column.beg_hash HashPos.beg rfl
    (sel_size_ne_zero_pass1 _) hzf0
  rw [h1, except_bind_ok]
  obtain ⟨T2, h2, hzf2⟩ := computePass_total w T1 Column.beg_hash Column.rev_hash HashPos.rev rfl
    (sel_size_ne_zero_zf hzf1 (Or.inl rfl)) hzf1
  rw [h2, except_bind_ok]
  cases cm with
  | true =>
    rw [if_pos rfl]
    obtain ⟨T3, h3, _⟩ := computePass_total w T2 Column.rev_hash Column.full_hash HashPos.full rfl
      (sel_size_ne_zero_zf hzf2 (Or.inr rfl)) hzf2
    exact ⟨T3, h3⟩
  | false =>
    rw [if_neg Bool.false_ne_true]
    exact ⟨T2, rfl⟩

/-! ### Corollaries of the canonical form for `analyze` -/

theorem analyze_canon (w : HashWorld) (cm : Bool) (files : List String) (hnd : files.Nodup) :
    DupeAnalysis.analyze w cm files = .ok (files.map (canonRow w cm files)) := by
  unfold DupeAnalysis.analyze
  rw [computeHashes_canon w cm _ (storeInv_analyzeRows w cm files)
    (by rw [pathsOf_analyzeRows]; exact hnd)]
  rw [pathsOf_analyzeRows, analyzeRows_eq, List.map_map]
  congr 1
  apply List.map_congr_left
  intro p _
  simp only [Function.comp_apply]
  by_cases h : sizeW w p = 0
  · rw [if_pos h]
    rfl
  · rw [if_neg h]

theorem canonRow_zero {w : HashWorld} {cm : Bool} {P : List String} {p : String}
    (h : sizeW w p = 0) : canonRow w cm P p = zeroRow p := by
  unfold canonRow zeroRow cBeg cRev cFull
  rw [if_pos h, if_pos h, if_pos h, h]

theorem not_selected_of_new_filled {T : Table} {old new : Column} {p : String}
    (hfilled : ∀ r ∈ T, r.path = p → colVal new r ≠ none) :
    p ∉ pathsOf (sqlSelect T old new) := by
  intro hmem
  obtain ⟨r, hrsel, hrp⟩ := List.mem_map.mp hmem
  have hrT := (List.mem_filter.mp hrsel).1
  have hsel := (List.mem_filter.mp hrsel).2
  rw [selPred_iff] at hsel
  exact hfilled r hrT hrp hsel.2

theorem analyzeRows_row_of_zero {w : HashWorld} {files : List String} {p : String}
    (hz : sizeW w p = 0) :
    ∀ r ∈ analyzeRows w files, r.path = p → r = zeroRow p := by
  intro r hr hrp
  rw [analyzeRows_eq] at hr
  obtain ⟨x, hx, hxeq⟩ := List.mem_map.mp hr
  have hpath : r.path = x := by
    rw [← hxeq]
    by_cases h : sizeW w x = 0
    · rw [if_pos h]
      rfl
    · rw [if_neg h]
  have hxp : x = p := hpath.symm.trans hrp
  subst hxp
  rw [← hxeq, if_pos hz]

/-- C8: a 0-byte file is inserted with all three stage hashes already set
to the fixed empty-content hash, is never selected by any of the three
collision passes (hence `get_hash` never opens or reads it), and two
distinct 0-byte files end up in a common `rev_hash` duplicate group. -/
theorem C8_zero_size_shortcircuit (w : HashWorld) (cm : Bool) (files : List String)
    (p q : String) (hnd : files.Nodup) (hp : p ∈ files) (hq : q ∈ files) (hpq : p ≠ q)
    (hzp : w.osize p = some 0) (hzq : w.osize q = some 0) :
    ∃ T1 T2 T3,
      computePass w (analyzeRows w files) Column.size Column.beg_hash = .ok T1 ∧
      computePass w T1 Column.beg_hash Column.rev_hash = .ok T2 ∧
      DupeAnalysis.analyze w cm files = .ok T3 ∧
      p ∉ pathsOf (sqlSelect (analyzeRows w files) Column.size Column.beg_hash) ∧
      p ∉ pathsOf (sqlSelect T1 Column.beg_hash Column.rev_hash) ∧
      p ∉ pathsOf (sqlSelect T2 Column.rev_hash Column.full_hash) ∧
      findRow T3 p = some (zeroRow p) ∧
      sameGroup T3 Column.rev_hash p q = true := by
  have hzw : sizeW w p = 0 := by unfold sizeW; rw [hzp]
  have hzwq : sizeW w q = 0 := by unfold sizeW; rw [hzq]
  have hinv := storeInv_analyzeRows w cm files
  have hndp : (pathsOf (analyzeRows w files)).Nodup := by
    rw [pathsOf_analyzeRows]; exact hnd
  set T0 := analyzeRows w files with hT0
  set P := pathsOf T0 with hP
  refine ⟨T0.map (fun r => { r with beg_hash := cBeg w P r.path }),
    T0.map (fun r => { r with beg_hash := cBeg w P r.path, rev_hash := cRev w P r.path }),
    files.map (canonRow w cm files),
    pass1_char w cm T0 hinv hndp, pass2_char w cm T0 hinv hndp,
    analyze_canon w cm files hnd, ?_, ?_, ?_, ?_, ?_⟩
  · apply not_selected_of_new_filled
    intro r hr hrp
    rw [analyzeRows_row_of_zero hzw r hr hrp]
    intro h
    exact Option.noConfusion h
  · apply not_selected_of_new_filled
    intro r hr hrp
    obtain ⟨r0, hr0, heq⟩ := List.mem_map.mp hr
    have hr0p : r0.path = p := by
      rw [← hrp, ← heq]
    rw [analyzeRows_row_of_zero hzw r0 hr0 hr0p] at heq
    rw [← heq]
    intro h
    exact Option.noConfusion h
  · apply not_selected_of_new_filled
    intro r hr hrp
    obtain ⟨r0, hr0, heq⟩ := List.mem_map.mp hr
    have hr0p : r0.path = p := by
      rw [← hrp, ← heq]
    rw [analyzeRows_row_of_zero hzw r0 hr0 hr0p] at heq
    rw [← heq]
    intro h
    exact Option.noConfusion h
  · rw [findRow_map (fun y => rfl) files p, if_pos hp, canonRow_zero hzw]
  · have h1 : findRow (files.map (canonRow w cm files)) p = some (canonRow w cm files p) := by
      rw [findRow_map (fun y => rfl) files p, if_pos hp]
    have h2 : findRow (files.map (canonRow w cm files)) q = some (canonRow w cm files q) := by
      rw [findRow_map (fun y => rfl) files q, if_pos hq]
    unfold sameGroup colOf
    rw [h1, h2, canonRow_zero hzw, canonRow_zero hzwq]
    simp [zeroRow, colVal, hpq]

/-- C3 (amended): a `rev_hash` is computed only for files whose `beg_hash`
is non-null and shared with at least one other positive-size file — of any
size, not necessarily the same size, since the inner collision query of
`_generate_hash_sql` groups by the hash value alone; `full_hash` likewise
requires a surviving `rev_hash` collision. -/
theorem C3_hash_monotonicity_amended (w : HashWorld) (cm : Bool) (files : List String)
    (T : Table) (r : FileRow)
    (hnd : files.Nodup) (hok : DupeAnalysis.analyze w cm files = .ok T)
    (hr : r ∈ T) (hsz : r.size ≠ 0) :
    (r.rev_hash ≠ none →
      r.beg_hash ≠ none ∧ ∃ q ∈ T, q.path ≠ r.path ∧ 0 < q.size ∧ q.beg_hash = r.beg_hash) ∧
    (r.full_hash ≠ none →
      r.rev_hash ≠ none ∧ ∃ q ∈ T, q.path ≠ r.path ∧ 0 < q.size ∧ q.rev_hash = r.rev_hash) := by
  rw [analyze_canon w cm files hnd] at hok
  have hT : T = files.map (canonRow w cm files) := (Except.ok.inj hok).symm
  subst hT
  obtain ⟨p, hp, rfl⟩ := List.mem_map.mp hr
  have hszw : sizeW w p ≠ 0 := hsz
  constructor
  · intro hrev
    have hBC : BC w files p := by
      by_contra hnbc
      apply hrev
      show cRev w files p = none
      unfold cRev
      rw [if_neg hszw, if_neg hnbc]
    obtain ⟨hpos, hsome, q, hqm, hqne, hq0, hqeq⟩ := hBC
    refine ⟨?_, canonRow w cm files q, List.mem_map.mpr ⟨q, hqm, rfl⟩, hqne, hq0, hqeq⟩
    show cBeg w files p ≠ none
    intro h
    rw [h] at hsome
    simp at hsome
  · intro hfull
    have hFCc : cm = true ∧ FC w files p := by
      by_contra hnfc
      apply hfull
      show cFull w cm files p = none
      unfold cFull
      rw [if_neg hszw, if_neg hnfc]
    obtain ⟨_, hpos, hsome, q, hqm, hqne, hq0, hqeq⟩ := hFCc
    refine ⟨?_, canonRow w cm files q, List.mem_map.mpr ⟨q, hqm, rfl⟩, hqne, hq0, hqeq⟩
    show cRev w files p ≠ none
    intro h
    rw [h] at hsome
    simp at hsome

/-- World for the C3 witness: two same-size files sharing first-KiB content. -/
def wPair : HashWorld :=
  ⟨fun p => if p = "a" ∨ p = "b" then some 5 else none, fun _ _ => some "h"⟩

def wPairT : Table :=
  [⟨"a", 5, some "h", some "h", none⟩, ⟨"b", 5, some "h", some "h", none⟩]

def rowA : FileRow := ⟨"a", 5, some "h", some "h", none⟩

theorem C3_hash_monotonicity_amended_witness :
    ((["a", "b"] : List String).Nodup ∧
      DupeAnalysis.analyze wPair false ["a", "b"] = .ok wPairT ∧
      rowA ∈ wPairT ∧ rowA.size ≠ 0) ∧
    ((rowA.rev_hash ≠ none → rowA.beg_hash ≠ none ∧
        ∃ q ∈ wPairT, q.path ≠ rowA.path ∧ 0 < q.size ∧ q.beg_hash = rowA.beg_hash) ∧
     (rowA.full_hash ≠ none → rowA.rev_hash ≠ none ∧
        ∃ q ∈ wPairT, q.path ≠ rowA.path ∧ 0 < q.size ∧ q.rev_hash = rowA.rev_hash)) :=
  ⟨⟨by decide, by rfl, by decide, by decide⟩,
   C3_hash_monotonicity_amended wPair false ["a", "b"] wPairT rowA
     (by decide) (by rfl) (by decide) (by decide)⟩

/-- World for the C3 counterexample: A1 and B1 have different sizes but an
identical first KiB, while A2 (the only file with A1's size) differs in
its first KiB. -/
def wC3 : HashWorld :=
  ⟨fun p =>
      if p = "A1" ∨ p = "A2" then some 2000
      else if p = "B1" ∨ p = "B2" then some 3000 else none,
   fun p pos =>
     match pos with
     | HashPos.beg =>
        if p = "A1" ∨ p = "B1" then some "h1"
        else if p = "A2" then some "h2" else some "h3"
     | _ => some "r"⟩

def exC3T : Table :=
  [⟨"A1", 2000, some "h1", some "r", none⟩,
   ⟨"A2", 2000, some "h2", none, none⟩,
   ⟨"B1", 3000, some "h1", some "r", none⟩,
   ⟨"B2", 3000, some "h3", none, none⟩]

/-- C3 counterexample: the claim "rev_hash is computed only when beg_hash
collides with another file of the same size" is false on the code.  In
this run, A1's rev_hash is computed (it was NULL after insertion) even
though no other file of A1's size shares A1's beg_hash — its only
beg_hash partner is B1, which has a different size. -/
theorem C3_counterexample :
    DupeAnalysis.analyze wC3 false ["A1", "A2", "B1", "B2"] = .ok exC3T ∧
    (∀ r ∈ analyzeRows wC3 ["A1", "A2", "B1", "B2"], r.rev_hash = none) ∧
    (∃ r ∈ exC3T, r.path = "A1" ∧ r.rev_hash ≠ none ∧
      ∀ q ∈ exC3T, q.path ≠ "A1" → q.size = r.size → q.beg_hash ≠ r.beg_hash) := by
  refine ⟨by rfl, by decide, by decide⟩

/-- World for the C6 evaluation: two files that stat successfully (size 5)
but fail on every open/read. -/
def wC6 : HashWorld :=
  ⟨fun p => if p = "u1" ∨ p = "u2" then some 5 else none, fun _ _ => none⟩

def exC6T : Table :=
  [⟨"u1", 5, some "None", some "None", none⟩,
   ⟨"u2", 5, some "None", some "None", none⟩]

/-- C6 code-bug evaluation: when `get_hash` fails with OSError it returns
Python `None`, and `_update_file_hashes` interpolates it into the SQL
f-string as the literal text `'None'`.  Two unreadable files therefore
receive equal non-NULL `beg_hash`/`rev_hash` cells, are re-opened at
every later stage, and are reported as a duplicate group — instead of
being dropped from consideration as the claim states. -/
theorem C6_open_failure_code_eval :
    wC6.ohash "u1" HashPos.beg = none ∧ wC6.ohash "u2" HashPos.beg = none ∧
    DupeAnalysis.analyze wC6 false ["u1", "u2"] = .ok exC6T ∧
    sameGroup exC6T Column.rev_hash "u1" "u2" = true := by
  refine ⟨rfl, rfl, by rfl, by decide⟩

/-- World for the C8 witness: two 0-byte files. -/
def wZero : HashWorld :=
  ⟨fun p => if p = "z1" ∨ p = "z2" then some 0 else none, fun _ _ => some "x"⟩

theorem C8_zero_size_shortcircuit_witness :
    ((["z1", "z2"] : List String).Nodup ∧ "z1" ∈ (["z1", "z2"] : List String) ∧
      "z2" ∈ (["z1", "z2"] : List String) ∧ ("z1" : String) ≠ "z2" ∧
      wZero.osize "z1" = some 0 ∧ wZero.osize "z2" = some 0) ∧
    (∃ T1 T2 T3,
      computePass wZero (analyzeRows wZero ["z1", "z2"]) Column.size Column.beg_hash = .ok T1 ∧
      computePass wZero T1 Column.beg_hash Column.rev_hash = .ok T2 ∧
      DupeAnalysis.analyze wZero false ["z1", "z2"] = .ok T3 ∧
      "z1" ∉ pathsOf (sqlSelect (analyzeRows wZero ["z1", "z2"]) Column.size Column.beg_hash) ∧
      "z1" ∉ pathsOf (sqlSelect T1 Column.beg_hash Column.rev_hash) ∧
      "z1" ∉ pathsOf (sqlSelect T2 Column.rev_hash Column.full_hash) ∧
      findRow T3 "z1" = some (zeroRow "z1") ∧
      sameGroup T3 Column.rev_hash "z1" "z2" = true) :=
  ⟨⟨by decide, by decide, by decide, by decide, by rfl, by rfl⟩,
   C8_zero_size_shortcircuit wZero false ["z1", "z2"] "z1" "z2"
     (by decide) (by decide) (by decide) (by decide) (by rfl) (by rfl)⟩

theorem copyData_path_iff {dst src : Table} {p : String} :
    p ∈ pathsOf (copyData dst src) ↔ p ∈ pathsOf dst ∨ p ∈ pathsOf src := by
  constructor
  · intro h
    obtain ⟨r, hr, hrp⟩ := List.mem_map.mp h
    rcases copyData_mem_rec hr with h2 | h2
    · exact Or.inl (List.mem_map.mpr ⟨r, h2, hrp⟩)
    · exact Or.inr (List.mem_map.mpr ⟨r, h2, hrp⟩)
  · rintro (h | h)
    · exact copyData_path_dst h
    · exact copyData_path_src h

theorem copyData_of_subset {src : Table} :
    ∀ {dst : Table}, (∀ r ∈ src, r.path ∈ pathsOf dst) → copyData dst src = dst := by
  induction src with
  | nil => intro dst _; rfl
  | cons s src ih =>
    intro dst h
    unfold copyData
    rw [List.foldl_cons]
    have hany : dst.any (fun q => decide (q.path = s.path)) = true := by
      obtain ⟨r, hr, hrp⟩ := List.mem_map.mp (h s (List.mem_cons_self _ _))
      rw [List.any_eq_true]
      exact ⟨r, hr, by rw [decide_eq_true_eq]; exact hrp⟩
    rw [if_pos hany]
    show copyData dst src = dst
    exact ih (fun r hr => h r (List.mem_cons_of_mem _ hr))

theorem map_canon_as_pathsmap (w : HashWorld) (cm : Bool) (T : Table) :
    T.map (fun r => canonRow w cm (pathsOf T) r.path)
      = (pathsOf T).map (canonRow w cm (pathsOf T)) := by
  show _ = (T.map (fun r => r.path)).map (canonRow w cm (pathsOf T))
  rw [List.map_map]
  rfl

/-- C5: store merge is idempotent.  With `TAB` the store produced by
merging sub-stores `A` and `B`: (1) running `_merge` again over the same
sub-stores into the existing store is a no-op (`INSERT OR IGNORE` skips
every row and no hash cell is NULL any more); (2) merging `{A,B}` with
`C` incrementally (via `TAB`) or merging `{A,B,C}` at once yields the
same duplicate groups. -/
theorem C5_merge_idempotent (w : HashWorld) (cm : Bool) (A B C TAB : Table)
    (hA : storeInv w cm A) (hB : storeInv w cm B) (hC : storeInv w cm C)
    (hAB : mergeInto w cm [] [A, B] = .ok TAB) :
    mergeInto w cm TAB [A, B] = .ok TAB ∧
    (∀ TABC TABC2,
      mergeInto w cm [] [TAB, C] = .ok TABC →
      mergeInto w cm [] [A, B, C] = .ok TABC2 →
      ∀ p q, sameGroup TABC (dupCol cm) p q = sameGroup TABC2 (dupCol cm) p q) := by
  have hinvAB : storeInv w cm ([A, B].foldl copyData []) := by
    apply storeInv_foldl w cm [A, B] (storeInv_nil w cm)
    intro S hS
    rcases List.mem_cons.mp hS with h | h
    · rw [h]; exact hA
    · rw [List.mem_singleton.mp h]; exact hB
  have hndAB : (pathsOf ([A, B].foldl copyData [])).Nodup :=
    nodup_foldl_copyData [A, B] (by simp [pathsOf])
  have hcanon : mergeInto w cm [] [A, B]
      = .ok ((pathsOf ([A, B].foldl copyData [])).map
          (canonRow w cm (pathsOf ([A, B].foldl copyData [])))) := by
    unfold mergeInto
    rw [computeHashes_canon w cm _ hinvAB hndAB, map_canon_as_pathsmap]
  have hTAB : TAB = (pathsOf ([A, B].foldl copyData [])).map
      (canonRow w cm (pathsOf ([A, B].foldl copyData []))) := by
    rw [hcanon] at hAB
    exact (Except.ok.inj hAB).symm
  subst hTAB
  set PB := pathsOf ([A, B].foldl copyData []) with hPB
  have hPBnd : PB.Nodup := hndAB
  have hApath : ∀ r ∈ A, r.path ∈ PB := by
    intro r hr
    rw [hPB]
    show r.path ∈ pathsOf ([A, B].foldl copyData [])
    rw [List.foldl_cons, List.foldl_cons, List.foldl_nil]
    apply copyData_path_dst
    apply copyData_path_src
    exact List.mem_map.mpr ⟨r, hr, rfl⟩
  have hBpath : ∀ r ∈ B, r.path ∈ PB := by
    intro r hr
    rw [hPB]
    show r.path ∈ pathsOf ([A, B].foldl copyData [])
    rw [List.foldl_cons, List.foldl_cons, List.foldl_nil]
    apply copyData_path_src
    exact List.mem_map.mpr ⟨r, hr, rfl⟩
  constructor
  · unfold mergeInto
    rw [List.foldl_cons, List.foldl_cons, List.foldl_nil]
    rw [copyData_of_subset (fun r hr => by
      apply copyData_path_iff.mpr
      left
      rw [pathsOf_canonTable]
      exact hBpath r hr)]
    rw [copyData_of_subset (fun r hr => by
      rw [pathsOf_canonTable]
      exact hApath r hr)]
    exact computeHashes_canon_fix w cm PB hPBnd
  · intro TABC TABC2 h1 h2 p q
    have hinv1 : storeInv w cm ([PB.map (canonRow w cm PB), C].foldl copyData []) := by
      apply storeInv_foldl w cm _ (storeInv_nil w cm)
      intro S hS
      rcases List.mem_cons.mp hS with h | h
      · rw [h]; exact storeInv_canonTable w cm PB
      · rw [List.mem_singleton.mp h]; exact hC
    have hnd1 : (pathsOf ([PB.map (canonRow w cm PB), C].foldl copyData [])).Nodup :=
      nodup_foldl_copyData _ (by simp [pathsOf])
    have hinv2 : storeInv w cm ([A, B, C].foldl copyData []) := by
      apply storeInv_foldl w cm _ (storeInv_nil w cm)
      intro S hS
      rcases List.mem_cons.mp hS with h | h
      · rw [h]; exact hA
      rcases List.mem_cons.mp h with h2 | h2
      · rw [h2]; exact hB
      · rw [List.mem_singleton.mp h2]; exact hC
    have hnd2 : (pathsOf ([A, B, C].foldl copyData [])).Nodup :=
      nodup_foldl_copyData _ (by simp [pathsOf])
    unfold mergeInto at h1 h2
    rw [computeHashes_canon w cm _ hinv1 hnd1, map_canon_as_pathsmap] at h1
    rw [computeHashes_canon w cm _ hinv2 hnd2, map_canon_as_pathsmap] at h2
    have hTABC : TABC = (pathsOf ([PB.map (canonRow w cm PB), C].foldl copyData [])).map
        (canonRow w cm (pathsOf ([PB.map (canonRow w cm PB), C].foldl copyData []))) :=
      (Except.ok.inj h1).symm
    have hTABC2 : TABC2 = (pathsOf ([A, B, C].foldl copyData [])).map
        (canonRow w cm (pathsOf ([A, B, C].foldl copyData []))) :=
      (Except.ok.inj h2).symm
    have hset : ∀ x, x ∈ pathsOf ([PB.map (canonRow w cm PB), C].foldl copyData [])
        ↔ x ∈ pathsOf ([A, B, C].foldl copyData []) := by
      intro x
      rw [show ([PB.map (canonRow w cm PB), C].foldl copyData [])
          = copyData (copyData [] (PB.map (canonRow w cm PB))) C from rfl]
      rw [show ([A, B, C].foldl copyData [])
          = copyData (copyData (copyData [] A) B) C from rfl]
      rw [copyData_path_iff, copyData_path_iff, copyData_path_iff, copyData_path_iff,
        copyData_path_iff, pathsOf_canonTable]
      have hPBiff : ∀ y, y ∈ PB ↔ (y ∈ pathsOf ([] : Table) ∨ y ∈ pathsOf A) ∨ y ∈ pathsOf B := by
        intro y
        rw [hPB]
        rw [show ([A, B].foldl copyData []) = copyData (copyData [] A) B from rfl]
        rw [copyData_path_iff, copyData_path_iff]
      rw [hPBiff]
      tauto
    rw [hTABC, hTABC2]
    exact sameGroup_canonTable w cm (dupCol cm) _ _ hset p q

/-- World and single-root stores for the C5 witness. -/
def wM : HashWorld :=
  ⟨fun p => if p = "a" ∨ p = "b" ∨ p = "c" then some 2 else none, fun _ _ => some "g"⟩

def storeA : Table := [⟨"a", 2, none, none, none⟩]

def storeB : Table := [⟨"b", 2, none, none, none⟩]

def storeC : Table := [⟨"c", 2, none, none, none⟩]

def wMT : Table :=
  [⟨"a", 2, some "g", some "g", none⟩, ⟨"b", 2, some "g", some "g", none⟩]

theorem C5_merge_idempotent_witness :
    (storeInv wM false storeA ∧ storeInv wM false storeB ∧ storeInv wM false storeC ∧
      mergeInto wM false [] [storeA, storeB] = .ok wMT) ∧
    (mergeInto wM false wMT [storeA, storeB] = .ok wMT ∧
      (∀ TABC TABC2,
        mergeInto wM false [] [wMT, storeC] = .ok TABC →
        mergeInto wM false [] [storeA, storeB, storeC] = .ok TABC2 →
        ∀ p q, sameGroup TABC (dupCol false) p q = sameGroup TABC2 (dupCol false) p q)) :=
  ⟨⟨by decide, by decide, by decide, by rfl⟩,
   C5_merge_idempotent wM false storeA storeB storeC wMT
     (by decide) (by decide) (by decide) (by rfl)⟩

/-! ## Part B: deduplicate.py — duplicate graph and keep/delete resolution

Paths are modelled as component lists (`FileUtil.parent` = `dropLast`,
`FileUtil.join dir name` = `dir ++ [name]`).  `pathStr` recovers the
absolute path string (used by `max_overlap` and the reversed-parent sort
key).  Python sets of nodes are modelled as lists of paths; Python dicts
as insertion-ordered association lists. -/

abbrev DPath := List String

/-- The absolute path string of a component list, e.g. `"/a/b"`. -/
def pathStr (p : DPath) : String := String.intercalate "/" ("" :: p)

/-- `DupeFile.depth` = `len(FileUtil.splitpath(path))`; splitting an
absolute path on the separator yields a leading empty component, so the
depth of a component list is its length plus one. -/
def depthOf (p : DPath) : Nat := p.length + 1

def alistGet {α β : Type _} [DecidableEq α] (l : List (α × β)) (k : α) : Option β :=
  (l.find? (fun kv => decide (kv.1 = k))).map (·.2)

def alistSet {α β : Type _} [DecidableEq α] (l : List (α × β)) (k : α) (v : β) : List (α × β) :=
  if (l.find? (fun kv => decide (kv.1 = k))).isSome then
    l.map (fun kv => if kv.1 = k then (k, v) else kv)
  else l ++ [(k, v)]

/-- Add an element to a Python set modelled as a list. -/
def setAdd {α : Type _} [DecidableEq α] (l : List α) (x : α) : List α :=
  if x ∈ l then l else l ++ [x]

/-- `defaultdict(set)[k].add(p)`. -/
def groupAdd {κ : Type _} [DecidableEq κ] (g : List (κ × List DPath)) (k : κ) (p : DPath) :
    List (κ × List DPath) :=
  match alistGet g k with
  | some l => alistSet g k (setAdd l p)
  | none => g ++ [(k, [p])]

/-- Append a DirNode path to a `dirs_w_dupes_by_depth` bucket. -/
def depthAdd (bd : List (Nat × List DPath)) (k : Nat) (d : DPath) : List (Nat × List DPath) :=
  match alistGet bd k with
  | some l => alistSet bd k (l ++ [d])
  | none => bd ++ [(k, [d])]

/-- The mutable counters and deletion flag of a `DupeDir` during
resolution (`count`, `count_total`, `is_deleted`). -/
structure DirVar where
  count : Int
  count_total : Int
  is_deleted : Bool
deriving DecidableEq

/-- The mutable resolution state: per-file `is_kept`/`is_deleted` flags
and the per-directory counters of the `dirs_w_dupes` registry. -/
structure ResState where
  fileKept : DPath → Bool
  fileDeleted : DPath → Bool
  dirs : DPath → Option DirVar

/-- The fields of a `DupeDir` that resolution reads but never writes
(fixed after graph construction by `load_fs` / `fill_parents`). -/
structure DirMeta where
  file_dupes : List DPath
  subdir_dupes : List DPath
  file_uniqs : List DPath
  subdir_uniqs : List DPath
  dupe_children : List DPath
  extra_total : Int
deriving DecidableEq

/-- The static part of the duplicate graph consumed by the resolution
loop of `DirectoryComparator.analyze`. -/
structure GraphStatic where
  duplicates : DPath → List DPath
  fsize : DPath → Int
  meta : DPath → DirMeta
  allDupes : List DPath
  byDepth : List (Nat × List DPath)

/-- `DupeFile.delete`: mark deleted unless already deleted or kept;
return the set of nodes actually deleted by this call. -/
def DupeFile.delete (σ : ResState) (p : DPath) : ResState × List DPath :=
  if ¬ σ.fileDeleted p = true ∧ ¬ σ.fileKept p = true then
    ({ σ with fileDeleted := fun q => if q = p then true else σ.fileDeleted q }, [p])
  else (σ, [])

/-- `DupeFile.keep`: unless already deleted, mark kept, then delete every
node in this node's `duplicates` set; return (keeps, deletes). -/
def DupeFile.keep (st : GraphStatic) (σ : ResState) (p : DPath) :
    ResState × List DPath × List DPath :=
  if ¬ σ.fileDeleted p = true then
    let σ1 := { σ with fileKept := fun q => if q = p then true else σ.fileKept q }
    let res := (st.duplicates p).foldl
      (fun (acc : ResState × List DPath) dq =>
        let r := DupeFile.delete acc.1 dq
        (r.1, acc.2 ++ r.2))
      (σ1, [])
    (res.1, [p], res.2)
  else (σ, [], [])

def dirDeleted (σ : ResState) (d : DPath) : Bool :=
  match σ.dirs d with
  | some v => v.is_deleted
  | none => false

def dirCountTotal (σ : ResState) (d : DPath) : Int :=
  match σ.dirs d with
  | some v => v.count_total
  | none => 0

/-- Apply an in-place update to the `DirVar` record of one directory
(`dirs_w_dupes[d]` mutation). -/
def dirsUpdate (σ : ResState) (d : DPath) (f : DirVar → DirVar) : ResState :=
  { σ with dirs := (fun q => if q = d then (σ.dirs d).map f else σ.dirs q) }

/-- `DupeDir.increment_dupes`: bump `count`/`count_total`, then recurse
into the parent while it is registered in `dirs_w_dupes`.  The guard
`d ≠ []` reflects that `os.path.dirname` stabilises at the filesystem
root, which is never registered (it lies beyond the `stop_dirs`); the
fuel `d.length + 1` supplied at every call site always suffices. -/
def DupeDir.increment_dupes : Nat → ResState → DPath → ResState
  | 0, σ, _ => σ
  | Nat.succ n, σ, d =>
    let σ1 := dirsUpdate σ d
      (fun v => { v with count := v.count + 1, count_total := v.count_total + 1 })
    if d ≠ [] ∧ (σ1.dirs d.dropLast).isSome then
      DupeDir.increment_dupes n σ1 d.dropLast
    else σ1

def DupeDir.has_no_extras (st : GraphStatic) (d : DPath) : Bool :=
  decide ((st.meta d).file_uniqs.length = 0) && decide ((st.meta d).subdir_uniqs.length = 0)

def DupeDir.has_no_dupedirs (st : GraphStatic) (σ : ResState) (d : DPath) : Bool :=
  (st.meta d).subdir_dupes.all (fun sd => dirDeleted σ sd)

def DupeDir.has_no_dupefiles (st : GraphStatic) (σ : ResState) (d : DPath) : Bool :=
  (st.meta d).file_dupes.all (fun fd => σ.fileDeleted fd)

def DupeDir.is_empty (st : GraphStatic) (σ : ResState) (d : DPath) : Bool :=
  DupeDir.has_no_extras st d && DupeDir.has_no_dupedirs st σ d && DupeDir.has_no_dupefiles st σ d

/-- `DupeDir.check_delete`: mark the directory deleted if it is not yet
deleted and is now empty; return its (possibly updated) deletion flag. -/
def DupeDir.check_delete (st : GraphStatic) (σ : ResState) (d : DPath) : ResState × Bool :=
  if ¬ dirDeleted σ d = true ∧ DupeDir.is_empty st σ d = true then
    let σ1 : ResState := { σ with dirs := (fun q =>
      if q = d then (σ.dirs d).map (fun v => { v with is_deleted := true }) else σ.dirs q) }
    (σ1, dirDeleted σ1 d)
  else (σ, dirDeleted σ d)

/-- `DupeDir.decrement_dupes`: decrement the counters, re-check emptiness
(`check_delete`), and recurse into the registered parent chain. -/
def DupeDir.decrement_dupes (st : GraphStatic) : Nat → ResState → DPath → ResState
  | 0, σ, _ => σ
  | Nat.succ n, σ, d =>
    let σ1 := dirsUpdate σ d
      (fun v => { v with count := v.count - 1, count_total := v.count_total - 1 })
    let σ2 := (DupeDir.check_delete st σ1 d).1
    if d ≠ [] ∧ (σ2.dirs d.dropLast).isSome then
      DupeDir.decrement_dupes st n σ2 d.dropLast
    else σ2

/-! ### `DupeDir.max_overlap` and `DupeDir.calc_max` -/

/-- One row body of the `max_overlap` dynamic program:
`dp[i][j] = dp[i-1][j-1] + 1` when the characters match, else `0`.
`prev` is the previous row (including its leading 0 cell). -/
def overlapRowAux (c : Char) : List Char → List Nat → List Nat
  | [], _ => []
  | _ :: _, [] => []
  | ch :: s2t, pv :: pvt => (if c = ch then pv + 1 else 0) :: overlapRowAux c s2t pvt

/-- Length of the largest overlapping substring computed by
`DupeDir.max_overlap` (`calc_max` only ever uses the length of the
returned substring). -/
def DupeDir.max_overlap_len (s1 s2 : List Char) : Nat :=
  (s1.foldl (fun (acc : List Nat × Nat) c =>
      let newRow := (0 : Nat) :: overlapRowAux c s2 acc.1
      (newRow, max acc.2 (newRow.foldl max 0)))
    (List.replicate (s2.length + 1) 0, 0)).2

/-- Sum of overlap lengths against all past kept paths (the weight used
by `calc_max` when `past_kept` is non-empty). -/
def overlapWeight (past : List DPath) (d : DPath) : Nat :=
  past.foldl (fun acc pk => acc + DupeDir.max_overlap_len (pathStr d).data (pathStr pk).data) 0

def intCmp (a b : Int) : Ordering :=
  if a < b then .lt else if b < a then .gt else .eq

def natCmp (a b : Nat) : Ordering :=
  if a < b then .lt else if b < a then .gt else .eq

/-- Python string comparison (lexicographic by code point). -/
def listCharCmp : List Char → List Char → Ordering
  | [], [] => .eq
  | [], _ :: _ => .lt
  | _ :: _, [] => .gt
  | a :: as, b :: bs =>
    if a < b then .lt else if b < a then .gt else listCharCmp as bs

/-- Python tuple comparison of the `calc_max` sort key
`(count_total, extra_total, parent[::-1])`. -/
def keyCmp (k1 k2 : Int × Int × List Char) : Ordering :=
  match intCmp k1.1 k2.1 with
  | .lt => .lt
  | .gt => .gt
  | .eq =>
    match intCmp k1.2.1 k2.2.1 with
    | .lt => .lt
    | .gt => .gt
    | .eq => listCharCmp k1.2.2 k2.2.2

/-- The sort key of `calc_max`: `(d.count_total, d.extra_total, d.parent[::-1])`. -/
def calcKey (st : GraphStatic) (σ : ResState) (d : DPath) : Int × Int × List Char :=
  (dirCountTotal σ d, (st.meta d).extra_total, (pathStr d.dropLast).data.reverse)

/-- Head of Python's stable descending sort: the earliest element whose
key is maximal (`sorted(arr, key=..., reverse=True)[0]`). -/
def pyMaxFirst (key : DPath → Int × Int × List Char) (hd : DPath) (tl : List DPath) : DPath :=
  tl.foldl (fun best d => if keyCmp (key d) (key best) = .gt then d else best) hd

/-- `DupeDir.calc_max`: filter out deleted candidates; when a past-kept
history exists, restrict to the candidates of maximal overlap weight
(`weighted[keys[0]]`, in input order); then take the head of the stable
descending sort by `(count_total, extra_total, reversed parent)`. -/
def DupeDir.calc_max (st : GraphStatic) (σ : ResState) (dupedir_list : List DPath)
    (past_kept : List DPath) : Option DPath :=
  if (dupedir_list.filter (fun d => ! dirDeleted σ d)).length = 0 then none
  else
    match (if past_kept ≠ [] then
            (dupedir_list.filter (fun d => ! dirDeleted σ d)).filter
              (fun d => decide (overlapWeight past_kept d =
                ((dupedir_list.filter (fun d => ! dirDeleted σ d)).map
                  (overlapWeight past_kept)).foldl max 0))
           else dupedir_list.filter (fun d => ! dirDeleted σ d)) with
    | [] => none
    | d :: rest => some (pyMaxFirst (calcKey st σ) d rest)

/-! ### `DupeDir.keep` and the resolution loop of `DirectoryComparator.analyze` -/

/-- `final_output`: per kept path, the (keeps, deletes, reclaimed size). -/
abbrev Accum := List (DPath × (List DPath × List DPath × Int))

/-- `delete_lookup`: which kept path deleted a given file. -/
abbrev DelLookup := List (DPath × DPath)

/-- One `file_dupes` iteration of `DupeDir.keep`: keep the file, bump
the registered parent chains of the new keeps, and for each cascaded
delete record the deleter, decrement its parent chain and add its
size. -/
def keepFileStep (st : GraphStatic) (p : DPath)
    (acc : ResState × List DPath × List DPath × Int × DelLookup) (dupe : DPath) :
    ResState × List DPath × List DPath × Int × DelLookup :=
  let σ0 := acc.1
  let keeps := acc.2.1
  let deletes := acc.2.2.1
  let size := acc.2.2.2.1
  let dl := acc.2.2.2.2
  let r := DupeFile.keep st σ0 dupe
  let σ1 := r.1
  let ks := r.2.1
  let ds := r.2.2
  let σ2 := ks.foldl (fun σk k =>
      if (σk.dirs k.dropLast).isSome
      then DupeDir.increment_dupes (k.dropLast.length + 1) σk k.dropLast else σk) σ1
  let acc3 := ds.foldl (fun (acc2 : ResState × DelLookup × Int) d =>
      let dlx2 := alistSet acc2.2.1 d p
      let σd2 := if (acc2.1.dirs d.dropLast).isSome
        then DupeDir.decrement_dupes st (d.dropLast.length + 1) acc2.1 d.dropLast else acc2.1
      (σd2, dlx2, acc2.2.2 + st.fsize d)) (σ2, dl, size)
  (acc3.1, keeps ++ ks, deletes ++ ds, acc3.2.2, acc3.2.1)

/-- `DupeDir.keep`: keep every duplicate file directly under this
directory (cascading deletions to their peers and propagating counters up
both parent chains); if nothing new was kept, descend into the best
`dupe_children` candidate.  The recursion through `dupe_children` is
fuelled; `none` models non-termination/crash. -/
def DupeDir.keep (st : GraphStatic) : Nat → ResState → Accum → DelLookup → DPath →
    Option (ResState × Accum × DelLookup × (Option DPath × List DPath × List DPath))
  | 0, _, _, _, _ => none
  | Nat.succ fuel, σ, accum, dlookup, p =>
    let step := (st.meta p).file_dupes.foldl (keepFileStep st p) (σ, [], [], 0, dlookup)
    let σf := step.1
    let keeps := step.2.1
    let deletes := step.2.2.1
    let size := step.2.2.2.1
    let dlf := step.2.2.2.2
    if keeps ≠ [] then
      some (σf, alistSet accum p (keeps, deletes, size), dlf, (some p, keeps, deletes))
    else
      match DupeDir.calc_max st σf (st.meta p).dupe_children (accum.map (·.1)) with
      | some dd => DupeDir.keep st fuel σf accum dlf dd
      | none => some (σf, accum, dlf, (none, [], []))

/-- The `while len(remaining_dupes) > 0` loop of
`DirectoryComparator.analyze`: re-seed the candidate list from the
parents of the still-unresolved duplicate files (one depth level up,
lowest bucket first), select with `calc_max` weighted by the kept-path
history, and keep.  `none` models a crash (`KeyError`/`AttributeError`)
or exhausted fuel (the loop has no other exit when it stops progressing). -/
def resolveLoop (st : GraphStatic) : Nat → ResState → Accum → DelLookup → List DPath →
    Option (ResState × Accum × DelLookup)
  | 0, _, _, _, _ => none
  | Nat.succ n, σ, accum, dlookup, reviewed =>
    let remaining := st.allDupes.filter (fun f => decide (f ∉ reviewed))
    if remaining.length = 0 then some (σ, accum, dlookup)
    else
      if remaining.any (fun df => (σ.dirs df.dropLast).isNone) then none
      else
        let key := match remaining.map (fun df => df.length) with
          | [] => 0
          | k :: t => t.foldl min k
        let start_list := (remaining.filter (fun df => decide (df.length = key))).map
          (fun df => df.dropLast)
        match DupeDir.calc_max st σ start_list (accum.map (·.1)) with
        | none => none
        | some d =>
          match DupeDir.keep st n σ accum dlookup d with
          | none => none
          | some (σ2, accum2, dl2, (_, ks, ds)) =>
            resolveLoop st n σ2 accum2 dl2 (reviewed ++ ks ++ ds)

/-- `sorted(keys)[0]` of a bucket map: the minimum key (0 when empty,
modelling the `IndexError` never hit in practice). -/
def minKey : List Nat → Nat
  | [] => 0
  | k :: t => t.foldl min k

/-- The shallowest `dirs_w_dupes_by_depth` bucket. -/
def startList (st : GraphStatic) : List DPath :=
  match alistGet st.byDepth (minKey (st.byDepth.map (·.1))) with
  | some l => l
  | none => []

/-- The resolution portion of `DirectoryComparator.analyze`: first pass
from the shallowest `dirs_w_dupes_by_depth` bucket with no past-kept
history, then the re-seeding loop until every duplicate file is reviewed. -/
def analyzeResolve (st : GraphStatic) (fuel : Nat) (σ0 : ResState) :
    Option (ResState × Accum × DelLookup) :=
  match DupeDir.calc_max st σ0 (startList st) [] with
  | none => none
  | some d =>
    match DupeDir.keep st fuel σ0 [] [] d with
    | none => none
    | some (σ1, accum1, dl1, (_, ks, ds)) =>
      resolveLoop st fuel σ1 accum1 dl1 (ks ++ ds)

/-! ### The final cleanup pass of `DirectoryComparator.analyze` -/

/-- File-substitution part of the cleanup: for each duplicate file of a
deleted directory, replace its entry in its deleter's delete set with the
directory (only once).  `none` models the `KeyError` crashes on
`delete_lookup[d.path]` / `final_output[kept]`. -/
def cleanupFiles (st : GraphStatic) (dlookup : DelLookup) (dd : DPath) (accum : Accum) :
    Option (Accum × Bool) :=
  (st.meta dd).file_dupes.foldlM (fun (acc : Accum × Bool) d =>
    match alistGet dlookup d with
    | none => none
    | some kept =>
      match alistGet acc.1 kept with
      | none => none
      | some v =>
        if d ∈ v.2.1 then
          let dels2 := v.2.1.erase d
          let dels3 := if acc.2 then dels2 ++ [dd] else dels2
          some (alistSet acc.1 kept (v.1, dels3, v.2.2), false)
        else some acc) (accum, true)

/-- Subdirectory-substitution part of the cleanup: scan every
`final_output` entry for the subdirectory. -/
def cleanupSubdirOne (dd sd : DPath) (accum : Accum) (first : Bool) : Accum × Bool :=
  accum.foldl (fun (acc : Accum × Bool) kv =>
    if sd ∈ kv.2.2.1 then
      let dels2 := kv.2.2.1.erase sd
      let dels3 := if acc.2 then dels2 ++ [dd] else dels2
      (acc.1 ++ [(kv.1, (kv.2.1, dels3, kv.2.2.2))], false)
    else (acc.1 ++ [kv], acc.2)) ([], first)

def cleanupSubdirs (dd : DPath) (subdirs : List DPath) (accum : Accum) (first : Bool) :
    Accum × Bool :=
  subdirs.foldl (fun (acc : Accum × Bool) sd => cleanupSubdirOne dd sd acc.1 acc.2)
    (accum, first)

/-- One directory of the cleanup loop: re-check deletability; if the
directory is (or was already) deleted, compact its files and duplicate
subdirectories in the output delete sets. -/
def cleanupDirStep (st : GraphStatic) (dlookup : DelLookup) (acc2 : ResState × Accum)
    (dd : DPath) : Option (ResState × Accum) :=
  if (DupeDir.check_delete st acc2.1 dd).2 then
    match cleanupFiles st dlookup dd acc2.2 with
    | none => none
    | some (accum2, first2) =>
      some ((DupeDir.check_delete st acc2.1 dd).1,
            (cleanupSubdirs dd (st.meta dd).subdir_dupes accum2 first2).1)
  else some ((DupeDir.check_delete st acc2.1 dd).1, acc2.2)

/-- One depth bucket of the cleanup loop. -/
def cleanupKeyStep (st : GraphStatic) (dlookup : DelLookup) (acc : ResState × Accum)
    (key : Nat) : Option (ResState × Accum) :=
  (match alistGet st.byDepth key with
   | some l => l
   | none => []).foldlM (cleanupDirStep st dlookup) acc

/-- The post-resolution cleanup loop: visit `dirs_w_dupes_by_depth`
buckets from deepest to shallowest; for every directory that is (or
becomes) deleted, compact its files and duplicate subdirectories in the
output delete sets. -/
def cleanupPass (st : GraphStatic) (σ : ResState) (accum : Accum) (dlookup : DelLookup) :
    Option (ResState × Accum) :=
  ((st.byDepth.map (·.1)).mergeSort (fun a b => decide (b ≤ a))).foldlM
    (cleanupKeyStep st dlookup) (σ, accum)

/-! ### Graph construction: `DupeFile` / `DupeDir` objects, `load_fs`,
`check_single_parent`, `fill_parents`, and the group loop of
`DirectoryComparator.analyze` -/

/-- The build-time fields of a `DupeFile` object. -/
structure DupeFileNode where
  hash : String
  size : Int
  duplicates : List DPath
deriving DecidableEq

/-- The build-time fields of a `DupeDir` object. -/
structure DupeDirNode where
  path : DPath
  size : Int
  count : Int
  count_total : Int
  extra : Int
  extra_total : Int
  is_deleted : Bool
  is_full_dupe : Bool
  is_superset : Bool
  file_dupes : List DPath
  file_uniqs : List DPath
  subdir_dupes : List DPath
  subdir_uniqs : List DPath
  dupe_children : List DPath
  manual : Bool
deriving DecidableEq

def newDupeFile (hash : String) (size : Int) : DupeFileNode := ⟨hash, size, []⟩

/-- `DupeDir.__init__` (via `DupeFile.__init__` with empty hash, size 0). -/
def newDupeDir (path : DPath) : DupeDirNode :=
  ⟨path, 0, 0, 0, 0, 0, false, false, false, [], [], [], [], [], true⟩

/-- `DupeFile.set_dupes`: add every member of the group except itself to
this node's `duplicates` set. -/
def DupeFile.set_dupes (df_list : List DPath) (self : DPath) (node : DupeFileNode) :
    DupeFileNode :=
  { node with duplicates := (df_list.foldl
      (fun acc df => if df ≠ self then setAdd acc df else acc) node.duplicates) }

/-- The size of a file as recorded on its `DupeFile` object (consumed by
`load_fs`). -/
structure BuildFileInfo where
  size : Int
deriving DecidableEq

/-- `DupeDir.load_fs`: classify the directory's direct children (only the
first `os.walk` tuple is consumed — the loop breaks), accumulate
counters, and derive `is_full_dupe` / `is_superset`.  Note the source
initialises `all_dupedirs_are_full = False`, so the `and`-fold over
duplicate subdirectories is constantly `False`; only the
`has_no_dupedirs` special case can make it `True`. -/
def DupeDir.load_fs (walkFiles walkDirs : List String)
    (dupe_files : DPath → Option BuildFileInfo)
    (dupe_dirs : DPath → Option DupeDirNode)
    (self : DupeDirNode) : DupeDirNode :=
  let s1 := walkFiles.foldl (fun (s : DupeDirNode) fname =>
      let full_path := s.path ++ [fname]
      match dupe_files full_path with
      | some df =>
        { s with
          file_dupes := setAdd s.file_dupes full_path
          size := s.size + df.size
          count := s.count + 1 }
      | none =>
        { s with file_uniqs := s.file_uniqs ++ [full_path], extra := s.extra + 1 }) self
  let s2 := { s1 with
    count_total := s1.count_total + s1.count
    extra_total := s1.extra_total + s1.extra }
  let step := walkDirs.foldl (fun (acc : DupeDirNode × Bool) dname =>
      let s := acc.1
      let full_path := s.path ++ [dname]
      match dupe_dirs full_path with
      | some dd =>
        ({ s with
            subdir_dupes := setAdd s.subdir_dupes full_path
            count_total := s.count_total + dd.count_total
            size := s.size + dd.size },
         acc.2 && dd.is_full_dupe)
      | none =>
        ({ s with
            subdir_uniqs := s.subdir_uniqs ++ [full_path]
            extra_total := s.extra_total + 1 }, acc.2)) (s2, false)
  let s3 := { step.1 with manual := false }
  let has_no_dupedirs := s3.subdir_dupes.all (fun sd =>
    match dupe_dirs sd with
    | some dd => dd.is_deleted
    | none => false)
  let adf := if has_no_dupedirs then true else step.2
  let has_no_extras := (s3.file_uniqs.length == 0) && (s3.subdir_uniqs.length == 0)
  { s3 with
    is_full_dupe := has_no_extras && adf
    is_superset := !has_no_extras && adf }

/-- The filesystem as seen by `deduplicate.py`: `walk` yields the
`os.walk` tuples (dirpath, dirnames, filenames); the hash oracles model
`HashAnalysis.get_hash` (`none` = OSError). -/
structure FsWorld where
  walk : DPath → List (DPath × List String × List String)
  size : DPath → Option Int
  h1k : DPath → Option String
  hfull : DPath → Option String

/-- `DupeDir.check_single_parent`: if this directory is the only entry of
its parent (no files, exactly one subdirectory, which is this one),
synthesize a `DupeDir` for the parent with this directory as its sole
duplicate subdirectory. -/
def DupeDir.check_single_parent (w : FsWorld) (self : DPath) : Option DupeDirNode :=
  match w.walk self.dropLast with
  | (dirpath, dirs, filenames) :: _ =>
    match filenames, dirs with
    | [], [d] =>
      if dirpath ++ [d] = self then
        some { newDupeDir self.dropLast with subdir_dupes := [self] }
      else none
    | _, _ => none
  | [] => none

/-- The registries built by `DirectoryComparator.analyze` before
resolution: `dupefiles`, `dirs_w_dupes`, `dirs_w_dupes_by_depth`. -/
structure BuildState where
  dupefiles : List (DPath × DupeFileNode)
  dirs : List (DPath × DupeDirNode)
  byDepth : List (Nat × List DPath)
deriving DecidableEq

/-- The `DupeFile`-creation part of one group-loop iteration: create the
object if the path is new, recording it in `obj_list`. -/
def groupFileStep (hash : String) (sz : Int) (acc : BuildState × List DPath)
    (path : DPath) : BuildState × List DPath :=
  let b := acc.1
  if (alistGet b.dupefiles path).isSome then (b, acc.2)
  else ({ b with dupefiles := (b.dupefiles ++ [(path, newDupeFile hash sz)]) },
        acc.2 ++ [path])

/-- The parent-`DupeDir` seeding part of one group-loop iteration,
including the single-parent special case. -/
def groupDirStep (w : FsWorld) (b : BuildState) (path : DPath) : BuildState :=
  let parent := path.dropLast
  if (alistGet b.dirs parent).isSome then b
  else
    let b3 := { b with
      dirs := b.dirs ++ [(parent, newDupeDir parent)]
      byDepth := depthAdd b.byDepth (depthOf parent) parent }
    match DupeDir.check_single_parent w parent with
    | some sp =>
      { b3 with
        dirs := b3.dirs ++ [(sp.path, sp)]
        byDepth := depthAdd b3.byDepth (depthOf sp.path) sp.path }
    | none => b3

/-- One iteration of the duplicate-group loop of
`DirectoryComparator.analyze` (lines 761–786): skip groups smaller than
two, create the new `DupeFile` objects, seed parent `DupeDir`s (with the
single-parent special case), then cross-link the new objects with
`set_dupes`. -/
def analyzeGroupStep (w : FsWorld) (hash_file_size : String → Int)
    (bs : BuildState) (hash : String) (files : List DPath) : BuildState :=
  if files.length < 2 then bs
  else
    let step := files.foldl (fun (acc : BuildState × List DPath) path =>
      let r := groupFileStep hash (hash_file_size hash) acc path
      (groupDirStep w r.1 path, r.2)) (bs, [])
    let bs1 := step.1
    let obj_list := step.2
    { bs1 with dupefiles := (bs1.dupefiles.map (fun kv =>
        if kv.1 ∈ obj_list then (kv.1, DupeFile.set_dupes obj_list kv.1 kv.2) else kv)) }

def analyzeGroupLoop (w : FsWorld) (hash_file_size : String → Int)
    (groups : List (String × List DPath)) (bs0 : BuildState) : BuildState :=
  groups.foldl (fun bs g => analyzeGroupStep w hash_file_size bs g.1 g.2) bs0

/-- `DupeDir.fill_parents`: walk up from this node's parent to the
`stop_dirs`, creating aggregation `DupeDir`s as needed, linking
`dupe_children`, and adding this node's totals to every still-manual
ancestor.  Fuelled (`none` = the walk never reaches a stop dir). -/
def DupeDir.fill_parents (stop_dirs : List DPath) (selfPath : DPath) :
    Nat → DPath → DPath → BuildState → Option BuildState
  | 0, _, _, _ => none
  | Nat.succ fuel, parent, prev, bs =>
    if parent ∈ stop_dirs then some bs
    else
      let r := match alistGet bs.dirs parent with
        | some dd => (bs, dd)
        | none =>
          let dd := newDupeDir parent
          ({ bs with
              dirs := bs.dirs ++ [(parent, dd)]
              byDepth := depthAdd bs.byDepth (depthOf parent) parent }, dd)
      let bs1 := r.1
      let dd := r.2
      let dd2 := if prev ∈ dd.dupe_children then dd
        else { dd with dupe_children := dd.dupe_children ++ [prev] }
      let dd3 := if dd2.manual then
          match alistGet bs1.dirs selfPath with
          | some selfNode =>
            { dd2 with
              count_total := dd2.count_total + selfNode.count_total
              size := dd2.size + selfNode.size
              extra_total := dd2.extra_total + selfNode.extra_total }
          | none => dd2
        else dd2
      let bs2 := { bs1 with dirs := alistSet bs1.dirs parent dd3 }
      DupeDir.fill_parents stop_dirs selfPath fuel parent.dropLast parent bs2

/-! ### C2: `is_full_dupe` after `load_fs` -/

/-- A fully duplicated, not-deleted subdirectory node at `/S/sub`. -/
def exC2Sub : DupeDirNode := { newDupeDir ["S", "sub"] with is_full_dupe := true }

/-- The duplicate-directory registry for the C2 scenario: it contains
exactly the subdirectory `/S/sub`. -/
def exC2Dirs : DPath → Option DupeDirNode := fun p =>
  if p = ["S", "sub"] then some exC2Sub else none

/-- Running `DupeDir.load_fs` on `/S`, whose sole child is the duplicate
subdirectory `/S/sub` (no files, no unique entries). -/
def exC2Result : DupeDirNode :=
  DupeDir.load_fs [] ["sub"] (fun _ => none) exC2Dirs (newDupeDir ["S"])

/-- **C2.** After graph construction, `is_full_dupe` is NOT the stated
"no unique extras and every duplicate subdirectory is itself a full
dupe": the directory `/S` has no unique files, no unique
subdirectories, and its only duplicate subdirectory is itself a full
dupe that is not deleted, yet `load_fs` leaves `is_full_dupe = false` —
`all_dupedirs_are_full` is initialised to `False`, so the conjunction
over duplicate subdirectories can never become `True`. -/
theorem C2_full_dupe_code_eval :
    exC2Result.file_uniqs = [] ∧
    exC2Result.subdir_uniqs = [] ∧
    exC2Result.subdir_dupes = [["S", "sub"]] ∧
    (exC2Dirs ["S", "sub"]).map (fun d => d.is_full_dupe && !d.is_deleted) = some true ∧
    exC2Result.is_full_dupe = false :=
  ⟨rfl, rfl, rfl, rfl, rfl⟩

/-! ### C4: duplicate symmetry of the group loop -/

theorem alistGet_cons {α β : Type _} [DecidableEq α] (x : α × β) (l : List (α × β)) (k : α) :
    alistGet (x :: l) k = if x.1 = k then some x.2 else alistGet l k := by
  by_cases h : x.1 = k
  · simp [alistGet, List.find?, h]
  · simp [alistGet, List.find?, h]

theorem alistGet_append_none {α β : Type _} [DecidableEq α] (l1 l2 : List (α × β)) (k : α)
    (h : alistGet l1 k = none) : alistGet (l1 ++ l2) k = alistGet l2 k := by
  induction l1 with
  | nil => rfl
  | cons x l ih =>
    rw [List.cons_append, alistGet_cons]
    rw [alistGet_cons] at h
    by_cases hx : x.1 = k
    · rw [if_pos hx] at h; exact absurd h (by simp)
    · rw [if_neg hx] at h
      rw [if_neg hx]
      exact ih h

theorem alistGet_map_pair {α β : Type _} [DecidableEq α] (c : β) (l : List α) (k : α) :
    alistGet (l.map (fun p => (p, c))) k = if k ∈ l then some c else none := by
  induction l with
  | nil => rfl
  | cons a l ih =>
    rw [List.map_cons, alistGet_cons]
    by_cases h : a = k
    · subst h; simp
    · rw [if_neg h, ih]
      by_cases hk : k ∈ l
      · rw [if_pos hk, if_pos (List.mem_cons_of_mem a hk)]
      · have hne : k ∉ a :: l := by
          intro hm
          rcases List.mem_cons.mp hm with h1 | h1
          · exact h h1.symm
          · exact hk h1
        rw [if_neg hk, if_neg hne]

theorem alistGet_map_dupes (obj_list : List DPath)
    (g : DPath → DupeFileNode → DupeFileNode) (l : List (DPath × DupeFileNode)) (k : DPath) :
    alistGet (l.map (fun kv => if kv.1 ∈ obj_list then (kv.1, g kv.1 kv.2) else kv)) k
      = (alistGet l k).map (fun v => if k ∈ obj_list then g k v else v) := by
  induction l with
  | nil => rfl
  | cons x l ih =>
    rw [List.map_cons]
    by_cases hm : x.1 ∈ obj_list
    · rw [if_pos hm, alistGet_cons, alistGet_cons]
      by_cases h : x.1 = k
      · subst h; rw [if_pos rfl, if_pos rfl, Option.map_some', if_pos hm]
      · rw [if_neg h, if_neg h, ih]
    · rw [if_neg hm, alistGet_cons, alistGet_cons]
      by_cases h : x.1 = k
      · subst h; rw [if_pos rfl, if_pos rfl, Option.map_some', if_neg hm]
      · rw [if_neg h, if_neg h, ih]

/-- `groupDirStep` never touches the `dupefiles` registry. -/
theorem groupDirStep_dupefiles (w : FsWorld) (b : BuildState) (p : DPath) :
    (groupDirStep w b p).dupefiles = b.dupefiles := by
  unfold groupDirStep
  by_cases h : (alistGet b.dirs p.dropLast).isSome
  · rw [if_pos h]
  · rw [if_neg h]
    cases DupeDir.check_single_parent w p.dropLast <;> rfl

/-- Characterization of the `DupeFile`-creation fold over one group: on
fresh, duplicate-free input every path gets a new object appended in
order, and `obj_list` collects exactly the group. -/
theorem groupFold_spec (w : FsWorld) (hash : String) (sz : Int) :
    ∀ (files : List DPath) (b : BuildState) (seen : List DPath),
      (∀ p ∈ files, alistGet b.dupefiles p = none) → files.Nodup →
      ((files.foldl (fun acc path =>
          let r := groupFileStep hash sz acc path
          (groupDirStep w r.1 path, r.2)) (b, seen)).1.dupefiles
        = b.dupefiles ++ files.map (fun p => (p, newDupeFile hash sz))) ∧
      ((files.foldl (fun acc path =>
          let r := groupFileStep hash sz acc path
          (groupDirStep w r.1 path, r.2)) (b, seen)).2 = seen ++ files) := by
  intro files
  induction files with
  | nil => intro b seen _ _; exact ⟨(List.append_nil _).symm, (List.append_nil _).symm⟩
  | cons a l ih =>
    intro b seen hf hn
    have ha : alistGet b.dupefiles a = none := hf a (List.mem_cons_self a l)
    rw [List.foldl_cons]
    have hred : (let r := groupFileStep hash sz (b, seen) a
          (groupDirStep w r.1 a, r.2))
        = (groupDirStep w
            { b with dupefiles := b.dupefiles ++ [(a, newDupeFile hash sz)] } a,
           seen ++ [a]) := by
      show (groupDirStep w (groupFileStep hash sz (b, seen) a).1 a,
            (groupFileStep hash sz (b, seen) a).2) = _
      rw [groupFileStep]
      simp only [ha]
      rfl
    rw [hred]
    have hdf : (groupDirStep w
        { b with dupefiles := b.dupefiles ++ [(a, newDupeFile hash sz)] } a).dupefiles
        = b.dupefiles ++ [(a, newDupeFile hash sz)] := groupDirStep_dupefiles _ _ _
    have hfresh' : ∀ p ∈ l, alistGet (groupDirStep w
        { b with dupefiles := b.dupefiles ++ [(a, newDupeFile hash sz)] } a).dupefiles p
        = none := by
      intro p hp
      rw [hdf]
      rw [alistGet_append_none _ _ _ (hf p (List.mem_cons_of_mem a hp))]
      rw [alistGet_cons]
      have hap : ¬ ((a, newDupeFile hash sz).1 = p) := by
        intro e
        have e' : a = p := e
        exact (List.nodup_cons.mp hn).1 (e' ▸ hp)
      rw [if_neg hap]
      rfl
    obtain ⟨h1, h2⟩ := ih _ (seen ++ [a]) hfresh' (List.nodup_cons.mp hn).2
    refine ⟨?_, ?_⟩
    · rw [h1, hdf, List.append_assoc]
      rfl
    · rw [h2, List.append_assoc]
      rfl

/-- Folding `setAdd` over fresh, duplicate-free elements (skipping `p`)
appends exactly the elements distinct from `p`. -/
theorem setAdd_fold_filter {α : Type _} [DecidableEq α] (p : α) :
    ∀ (l acc : List α), l.Nodup → (∀ x ∈ l, x ∉ acc) →
      l.foldl (fun a df => if df ≠ p then setAdd a df else a) acc
        = acc ++ l.filter (fun q => decide (q ≠ p)) := by
  intro l
  induction l with
  | nil => intro acc _ _; exact (List.append_nil _).symm
  | cons a l ih =>
    intro acc hnd hfresh
    rw [List.foldl_cons, List.filter_cons]
    by_cases h : a = p
    · rw [if_neg (by simp [h]), if_neg (by simp [h])]
      exact ih acc (List.nodup_cons.mp hnd).2
        (fun x hx => hfresh x (List.mem_cons_of_mem a hx))
    · rw [if_pos (by simpa using h), if_pos (by simpa using h)]
      rw [setAdd, if_neg (hfresh a (List.mem_cons_self a l))]
      have hfresh' : ∀ x ∈ l, x ∉ acc ++ [a] := by
        intro x hx hm
        rcases List.mem_append.mp hm with h1 | h1
        · exact hfresh x (List.mem_cons_of_mem a hx) h1
        · exact (List.nodup_cons.mp hnd).1 ((List.mem_singleton.mp h1) ▸ hx)
      rw [ih (acc ++ [a]) (List.nodup_cons.mp hnd).2 hfresh', List.append_assoc]
      rfl

/-- Filtering out a member of a duplicate-free list shortens it by one. -/
theorem filter_ne_length {α : Type _} [DecidableEq α] (l : List α) (p : α)
    (hnd : l.Nodup) (hp : p ∈ l) :
    (l.filter (fun q => decide (q ≠ p))).length + 1 = l.length := by
  induction l with
  | nil => cases hp
  | cons a l ih =>
    rw [List.filter_cons]
    by_cases h : a = p
    · rw [if_neg (by simp [h])]
      have hpl : p ∉ l := h ▸ (List.nodup_cons.mp hnd).1
      have : l.filter (fun q => decide (q ≠ p)) = l := by
        apply List.filter_eq_self.mpr
        intro x hx
        exact decide_eq_true (fun e => hpl (e ▸ hx))
      rw [this, List.length_cons]
    · rw [if_pos (by simpa using h), List.length_cons, List.length_cons]
      have hpl : p ∈ l := by
        rcases List.mem_cons.mp hp with h1 | h1
        · exact absurd h1.symm h
        · exact h1
      rw [← ih (List.nodup_cons.mp hnd).2 hpl]

/-- The `duplicates` set built by `set_dupes` on a fresh object is the
group minus the object itself. -/
theorem set_dupes_duplicates (files : List DPath) (hnd : files.Nodup)
    (hash : String) (sz : Int) (p : DPath) :
    (DupeFile.set_dupes files p (newDupeFile hash sz)).duplicates
      = files.filter (fun q => decide (q ≠ p)) := by
  show files.foldl (fun acc df => if df ≠ p then setAdd acc df else acc) [] = _
  rw [setAdd_fold_filter p files [] hnd (by intro x _ hx; cases hx), List.nil_append]

/-- **C4.** For every duplicate group of size at least two, fresh in the
registry and free of repeats, the group loop gives every member a
`DupeFile` whose `duplicates` set holds exactly the other N−1 members
(never itself), and membership is symmetric. -/
theorem C4_duplicate_symmetry (w : FsWorld) (hfs : String → Int) (bs : BuildState)
    (hash : String) (files : List DPath)
    (hfresh : ∀ p ∈ files, alistGet bs.dupefiles p = none)
    (hnd : files.Nodup) (hlen : 2 ≤ files.length) :
    (∀ p ∈ files, ∃ node,
       alistGet (analyzeGroupStep w hfs bs hash files).dupefiles p = some node ∧
       node.duplicates.length + 1 = files.length ∧
       (∀ q, q ∈ node.duplicates ↔ q ∈ files ∧ q ≠ p)) ∧
    (∀ p ∈ files, ∀ q ∈ files, ∀ np nq,
       alistGet (analyzeGroupStep w hfs bs hash files).dupefiles p = some np →
       alistGet (analyzeGroupStep w hfs bs hash files).dupefiles q = some nq →
       (q ∈ np.duplicates ↔ p ∈ nq.duplicates)) := by
  have hF := groupFold_spec w hash (hfs hash) files bs [] hfresh hnd
  have key : ∀ p ∈ files, alistGet (analyzeGroupStep w hfs bs hash files).dupefiles p
      = some (DupeFile.set_dupes files p (newDupeFile hash (hfs hash))) := by
    intro p hp
    unfold analyzeGroupStep
    rw [if_neg (by omega : ¬ files.length < 2)]
    simp only [hF.1, hF.2, List.nil_append]
    rw [alistGet_map_dupes, alistGet_append_none _ _ _ (hfresh p hp), alistGet_map_pair,
        if_pos hp, Option.map_some', if_pos hp]
  refine ⟨?_, ?_⟩
  · intro p hp
    refine ⟨_, key p hp, ?_, ?_⟩
    · rw [set_dupes_duplicates files hnd]
      exact filter_ne_length files p hnd hp
    · intro q
      rw [set_dupes_duplicates files hnd, List.mem_filter]
      constructor
      · rintro ⟨h1, h2⟩; exact ⟨h1, of_decide_eq_true h2⟩
      · rintro ⟨h1, h2⟩; exact ⟨h1, decide_eq_true h2⟩
  · intro p hp q hq np nq hnp hnq
    rw [key p hp] at hnp
    rw [key q hq] at hnq
    injection hnp with e1
    injection hnq with e2
    rw [← e1, ← e2, set_dupes_duplicates files hnd, set_dupes_duplicates files hnd,
        List.mem_filter, List.mem_filter]
    constructor
    · rintro ⟨_, h2⟩
      exact ⟨hp, decide_eq_true (fun e => (of_decide_eq_true h2) e.symm)⟩
    · rintro ⟨_, h2⟩
      exact ⟨hq, decide_eq_true (fun e => (of_decide_eq_true h2) e.symm)⟩

/-- A trivial filesystem oracle for the C4 witness. -/
def exW4 : FsWorld := ⟨fun _ => [], fun _ => none, fun _ => none, fun _ => none⟩

/-- C4 instantiated on the fresh two-file group `/a/f`, `/b/f`. -/
theorem C4_duplicate_symmetry_witness :
    (∀ p ∈ ([["a", "f"], ["b", "f"]] : List DPath),
        alistGet (BuildState.mk [] [] []).dupefiles p = none) ∧
    ([["a", "f"], ["b", "f"]] : List DPath).Nodup ∧
    2 ≤ ([["a", "f"], ["b", "f"]] : List DPath).length ∧
    ((∀ p ∈ ([["a", "f"], ["b", "f"]] : List DPath), ∃ node,
       alistGet (analyzeGroupStep exW4 (fun _ => 7) ⟨[], [], []⟩ "h"
         [["a", "f"], ["b", "f"]]).dupefiles p = some node ∧
       node.duplicates.length + 1 = ([["a", "f"], ["b", "f"]] : List DPath).length ∧
       (∀ q, q ∈ node.duplicates ↔ q ∈ ([["a", "f"], ["b", "f"]] : List DPath) ∧ q ≠ p)) ∧
     (∀ p ∈ ([["a", "f"], ["b", "f"]] : List DPath),
      ∀ q ∈ ([["a", "f"], ["b", "f"]] : List DPath), ∀ np nq,
       alistGet (analyzeGroupStep exW4 (fun _ => 7) ⟨[], [], []⟩ "h"
         [["a", "f"], ["b", "f"]]).dupefiles p = some np →
       alistGet (analyzeGroupStep exW4 (fun _ => 7) ⟨[], [], []⟩ "h"
         [["a", "f"], ["b", "f"]]).dupefiles q = some nq →
       (q ∈ np.duplicates ↔ p ∈ nq.duplicates))) :=
  ⟨fun _ _ => rfl, by decide, by decide,
   C4_duplicate_symmetry exW4 (fun _ => 7) ⟨[], [], []⟩ "h" [["a", "f"], ["b", "f"]]
     (fun _ _ => rfl) (by decide) (by decide)⟩

/-! ### C9: what `calc_max` maximizes -/

theorem listCharCmp_refl : ∀ a : List Char, listCharCmp a a = .eq := by
  intro a
  induction a with
  | nil => rfl
  | cons x xs ih => simp [listCharCmp, lt_irrefl, ih]

theorem listCharCmp_gt_asym : ∀ a b : List Char,
    listCharCmp a b = .gt → listCharCmp b a ≠ .gt := by
  intro a
  induction a with
  | nil =>
    intro b h
    cases b <;> simp [listCharCmp] at h
  | cons x xs ih =>
    intro b h
    cases b with
    | nil => simp [listCharCmp]
    | cons y ys =>
      by_cases h1 : x < y
      · simp [listCharCmp, h1] at h
      · by_cases h2 : y < x
        · simp [listCharCmp, h1, h2]
        · simp only [listCharCmp, if_neg h1, if_neg h2] at h
          simp only [listCharCmp, if_neg h2, if_neg h1]
          exact ih ys h

theorem listCharCmp_le_trans : ∀ (a b c : List Char),
    listCharCmp a b ≠ .gt → listCharCmp b c ≠ .gt → listCharCmp a c ≠ .gt := by
  intro a
  induction a with
  | nil =>
    intro b c _ _
    cases c <;> simp [listCharCmp]
  | cons x xs ih =>
    intro b c h1 h2
    cases b with
    | nil => simp [listCharCmp] at h1
    | cons y ys =>
      cases c with
      | nil => simp [listCharCmp] at h2
      | cons z zs =>
        rcases lt_trichotomy x y with hxy | hxy | hxy
        · rcases lt_trichotomy y z with hyz | hyz | hyz
          · simp [listCharCmp, lt_trans hxy hyz]
          · subst hyz; simp [listCharCmp, hxy]
          · simp [listCharCmp, hyz, asymm hyz] at h2
        · subst hxy
          rcases lt_trichotomy x z with hyz | hyz | hyz
          · simp [listCharCmp, hyz]
          · subst hyz
            simp only [listCharCmp, lt_irrefl, if_neg (lt_irrefl x)] at h1 h2 ⊢
            exact ih ys zs h1 h2
          · simp [listCharCmp, hyz, asymm hyz] at h2
        · simp [listCharCmp, hxy, asymm hxy] at h1

theorem intCmp_refl (a : Int) : intCmp a a = .eq := by
  simp [intCmp]

theorem intCmp_eq_eq {a b : Int} (h : intCmp a b = .eq) : a = b := by
  unfold intCmp at h
  split_ifs at h
  omega

theorem intCmp_gt_iff {a b : Int} : intCmp a b = .gt ↔ b < a := by
  unfold intCmp
  split_ifs with h1 h2
  · simp; omega
  · simp; omega
  · simp; omega

theorem intCmp_lt_iff {a b : Int} : intCmp a b = .lt ↔ a < b := by
  unfold intCmp
  split_ifs with h1 h2
  · simp; omega
  · simp; omega
  · simp; omega

theorem keyCmp_refl (k : Int × Int × List Char) : keyCmp k k = .eq := by
  simp [keyCmp, intCmp_refl, listCharCmp_refl]

theorem keyCmp_gt_asym (a b : Int × Int × List Char)
    (h : keyCmp a b = .gt) : keyCmp b a ≠ .gt := by
  unfold keyCmp at h ⊢
  cases hab : intCmp a.1 b.1 with
  | lt => rw [hab] at h; cases h
  | gt =>
    have : a.1 > b.1 := intCmp_gt_iff.mp hab
    rw [intCmp_lt_iff.mpr this]
    simp
  | eq =>
    rw [hab] at h
    have he : a.1 = b.1 := intCmp_eq_eq hab
    rw [he, intCmp_refl]
    cases hab2 : intCmp a.2.1 b.2.1 with
    | lt => rw [hab2] at h; cases h
    | gt =>
      have : a.2.1 > b.2.1 := intCmp_gt_iff.mp hab2
      rw [intCmp_lt_iff.mpr this]
      simp
    | eq =>
      rw [hab2] at h
      have he2 : a.2.1 = b.2.1 := intCmp_eq_eq hab2
      rw [he2, intCmp_refl]
      simp only
      exact listCharCmp_gt_asym _ _ h

theorem keyCmp_le_trans (a b c : Int × Int × List Char)
    (h1 : keyCmp a b ≠ .gt) (h2 : keyCmp b c ≠ .gt) : keyCmp a c ≠ .gt := by
  unfold keyCmp at h1 h2 ⊢
  cases hab : intCmp a.1 b.1 with
  | gt => rw [hab] at h1; exact absurd rfl h1
  | lt =>
    have hlt : a.1 < b.1 := intCmp_lt_iff.mp hab
    cases hbc : intCmp b.1 c.1 with
    | gt => rw [hbc] at h2; exact absurd rfl h2
    | lt =>
      have : a.1 < c.1 := lt_trans hlt (intCmp_lt_iff.mp hbc)
      rw [intCmp_lt_iff.mpr this]
      simp
    | eq =>
      have : a.1 < c.1 := (intCmp_eq_eq hbc) ▸ hlt
      rw [intCmp_lt_iff.mpr this]
      simp
  | eq =>
    have he : a.1 = b.1 := intCmp_eq_eq hab
    rw [hab] at h1
    cases hbc : intCmp b.1 c.1 with
    | gt => rw [hbc] at h2; exact absurd rfl h2
    | lt =>
      have : a.1 < c.1 := he ▸ intCmp_lt_iff.mp hbc
      rw [intCmp_lt_iff.mpr this]
      simp
    | eq =>
      have he' : a.1 = c.1 := he.trans (intCmp_eq_eq hbc)
      rw [hbc] at h2
      rw [he', intCmp_refl]
      cases hab2 : intCmp a.2.1 b.2.1 with
      | gt => rw [hab2] at h1; exact absurd rfl h1
      | lt =>
        have hlt2 : a.2.1 < b.2.1 := intCmp_lt_iff.mp hab2
        cases hbc2 : intCmp b.2.1 c.2.1 with
        | gt => rw [hbc2] at h2; exact absurd rfl h2
        | lt =>
          have : a.2.1 < c.2.1 := lt_trans hlt2 (intCmp_lt_iff.mp hbc2)
          rw [intCmp_lt_iff.mpr this]
          simp
        | eq =>
          have : a.2.1 < c.2.1 := (intCmp_eq_eq hbc2) ▸ hlt2
          rw [intCmp_lt_iff.mpr this]
          simp
      | eq =>
        have he2 : a.2.1 = b.2.1 := intCmp_eq_eq hab2
        rw [hab2] at h1
        cases hbc2 : intCmp b.2.1 c.2.1 with
        | gt => rw [hbc2] at h2; exact absurd rfl h2
        | lt =>
          have : a.2.1 < c.2.1 := he2 ▸ intCmp_lt_iff.mp hbc2
          rw [intCmp_lt_iff.mpr this]
          simp
        | eq =>
          rw [hbc2] at h2
          rw [he2.trans (intCmp_eq_eq hbc2), intCmp_refl]
          simp only
          exact listCharCmp_le_trans _ _ _ h1 h2

/-- The selected head of the stable descending sort is one of the
candidates. -/
theorem pyMaxFirst_mem (key : DPath → Int × Int × List Char) :
    ∀ (tl : List DPath) (hd : DPath), pyMaxFirst key hd tl ∈ hd :: tl := by
  intro tl
  induction tl with
  | nil => intro hd; exact List.mem_cons_self hd []
  | cons d tl ih =>
    intro hd
    unfold pyMaxFirst at ih ⊢
    rw [List.foldl_cons]
    by_cases h : keyCmp (key d) (key hd) = .gt
    · rw [if_pos h]
      rcases List.mem_cons.mp (ih d) with h1 | h1
      · rw [h1]
        exact List.mem_cons_of_mem hd (List.mem_cons_self d tl)
      · exact List.mem_cons_of_mem hd (List.mem_cons_of_mem d h1)
    · rw [if_neg h]
      rcases List.mem_cons.mp (ih hd) with h1 | h1
      · rw [h1]
        exact List.mem_cons_self hd (d :: tl)
      · exact List.mem_cons_of_mem hd (List.mem_cons_of_mem d h1)

/-- No candidate compares strictly greater than the selected head. -/
theorem pyMaxFirst_max (key : DPath → Int × Int × List Char) :
    ∀ (tl : List DPath) (hd : DPath), ∀ e ∈ hd :: tl,
      keyCmp (key e) (key (pyMaxFirst key hd tl)) ≠ .gt := by
  intro tl
  induction tl with
  | nil =>
    intro hd e he
    rcases List.mem_cons.mp he with h1 | h1
    · rw [h1]
      show keyCmp (key hd) (key hd) ≠ .gt
      rw [keyCmp_refl]
      simp
    · cases h1
  | cons d tl ih =>
    intro hd e he
    unfold pyMaxFirst at ih ⊢
    rw [List.foldl_cons]
    by_cases h : keyCmp (key d) (key hd) = .gt
    · rw [if_pos h]
      rcases List.mem_cons.mp he with h1 | h1
      · rw [h1]
        exact keyCmp_le_trans _ _ _ (keyCmp_gt_asym _ _ h) (ih d d (List.mem_cons_self d tl))
      · exact ih d e h1
    · rw [if_neg h]
      rcases List.mem_cons.mp he with h1 | h1
      · rw [h1]
        exact ih hd hd (List.mem_cons_self hd tl)
      · rcases List.mem_cons.mp h1 with h2 | h2
        · rw [h2]
          exact keyCmp_le_trans _ _ _ h (ih hd hd (List.mem_cons_self hd tl))
        · exact ih hd e (List.mem_cons_of_mem hd h2)

theorem le_foldl_max : ∀ (l : List Nat) (a : Nat), a ≤ l.foldl max a := by
  intro l
  induction l with
  | nil => intro a; exact le_refl a
  | cons b l ih =>
    intro a
    rw [List.foldl_cons]
    exact le_trans (le_max_left a b) (ih (max a b))

theorem mem_le_foldl_max : ∀ (l : List Nat) (a : Nat), ∀ x ∈ l, x ≤ l.foldl max a := by
  intro l
  induction l with
  | nil => intro a x hx; cases hx
  | cons b l ih =>
    intro a x hx
    rw [List.foldl_cons]
    rcases List.mem_cons.mp hx with h1 | h1
    · rw [h1]
      exact le_trans (le_max_right a b) (le_foldl_max l (max a b))
    · exact ih (max a b) x h1

/-- Python tuple comparison of the full selection key, overlap weight
first. -/
def fullKeyCmp (k1 k2 : Nat × Int × Int × List Char) : Ordering :=
  match natCmp k1.1 k2.1 with
  | .lt => .lt
  | .gt => .gt
  | .eq => keyCmp k1.2 k2.2

/-- The complete key `calc_max` effectively maximizes: overlap weight
against past kept paths, then `(count_total, extra_total, reversed
parent)`. -/
def fullKey (st : GraphStatic) (σ : ResState) (past : List DPath) (d : DPath) :
    Nat × Int × Int × List Char := (overlapWeight past d, calcKey st σ d)

/-- **C9 (amended).** A candidate returned by `calc_max` is a
not-deleted member of the list, maximal under the lexicographic tuple
(overlap weight against past kept paths, `count_total`, `extra_total`,
reversed parent string) — not the path itself as final tie-break. -/
theorem C9_calc_max_amended (st : GraphStatic) (σ : ResState) (l past : List DPath) (d : DPath)
    (h : DupeDir.calc_max st σ l past = some d) :
    d ∈ l ∧ dirDeleted σ d = false ∧
    ∀ e ∈ l, dirDeleted σ e = false →
      fullKeyCmp (fullKey st σ past e) (fullKey st σ past d) ≠ .gt := by
  unfold DupeDir.calc_max at h
  by_cases hF : (l.filter (fun x => ! dirDeleted σ x)).length = 0
  · rw [if_pos hF] at h
    cases h
  · rw [if_neg hF] at h
    by_cases hp : past ≠ []
    · rw [if_pos hp] at h
      cases hf2 : (l.filter (fun x => ! dirDeleted σ x)).filter
          (fun x => decide (overlapWeight past x =
            ((l.filter (fun x => ! dirDeleted σ x)).map
              (overlapWeight past)).foldl max 0)) with
      | nil => rw [hf2] at h; cases h
      | cons d0 rest =>
        rw [hf2] at h
        injection h with hd
        have hmem2 : d ∈ d0 :: rest := hd ▸ pyMaxFirst_mem (calcKey st σ) rest d0
        rw [← hf2] at hmem2
        obtain ⟨hdF, hdw⟩ := List.mem_filter.mp hmem2
        obtain ⟨hdl, hddel⟩ := List.mem_filter.mp hdF
        have hwd : overlapWeight past d
            = ((l.filter (fun x => ! dirDeleted σ x)).map (overlapWeight past)).foldl max 0 :=
          of_decide_eq_true hdw
        refine ⟨hdl, by simpa using hddel, ?_⟩
        intro e hel hedel
        have heF : e ∈ l.filter (fun x => ! dirDeleted σ x) :=
          List.mem_filter.mpr ⟨hel, by rw [hedel]; rfl⟩
        have hle : overlapWeight past e
            ≤ ((l.filter (fun x => ! dirDeleted σ x)).map (overlapWeight past)).foldl max 0 :=
          mem_le_foldl_max _ 0 _ (List.mem_map_of_mem (overlapWeight past) heF)
        rcases lt_or_eq_of_le hle with hlt | heq
    
        · have hnatlt : natCmp (overlapWeight past e) (overlapWeight past d) = .lt := by
            unfold natCmp
            rw [if_pos (by rw [hwd]; exact hlt)]
          unfold fullKeyCmp fullKey
          rw [hnatlt]
          simp
        · have hef2 : e ∈ d0 :: rest := by
            rw [← hf2]
            exact List.mem_filter.mpr ⟨heF, decide_eq_true heq⟩
          have hkey : keyCmp (calcKey st σ e) (calcKey st σ d) ≠ .gt := by
            rw [← hd]
            exact pyMaxFirst_max (calcKey st σ) rest d0 e hef2
          have hnateq : natCmp (overlapWeight past e) (overlapWeight past d) = .eq := by
            unfold natCmp
            rw [heq, hwd]
            simp [lt_irrefl]
          unfold fullKeyCmp fullKey
          rw [hnateq]
          exact hkey
    · rw [if_neg hp] at h
      have hpe : past = [] := not_ne_iff.mp hp
      cases hf2 : l.filter (fun x => ! dirDeleted σ x) with
      | nil => exact absurd (by rw [hf2]; rfl) hF
      | cons d0 rest =>
        rw [hf2] at h
        injection h with hd
        have hmem2 : d ∈ d0 :: rest := hd ▸ pyMaxFirst_mem (calcKey st σ) rest d0
        rw [← hf2] at hmem2
        obtain ⟨hdl, hddel⟩ := List.mem_filter.mp hmem2
        refine ⟨hdl, by simpa using hddel, ?_⟩
        intro e hel hedel
        have heF : e ∈ l.filter (fun x => ! dirDeleted σ x) :=
          List.mem_filter.mpr ⟨hel, by rw [hedel]; rfl⟩
        have hef2 : e ∈ d0 :: rest := by rw [← hf2]; exact heF
        have hkey : keyCmp (calcKey st σ e) (calcKey st σ d) ≠ .gt := by
          rw [← hd]
          exact pyMaxFirst_max (calcKey st σ) rest d0 e hef2
        subst hpe
        show keyCmp (calcKey st σ e) (calcKey st σ d) ≠ .gt
        exact hkey

/-- A static graph for the C9 scenario: every directory has
`extra_total = 0` and no recorded structure. -/
def exSt9 : GraphStatic :=
  ⟨fun _ => [], fun _ => 0, fun _ => ⟨[], [], [], [], [], 0⟩, [], []⟩

/-- A resolution state for the C9 scenario: nothing kept or deleted,
every directory live with `count_total = 1`. -/
def exσ9 : ResState :=
  ⟨fun _ => false, fun _ => false, fun _ => some ⟨1, 1, false⟩⟩

/-- Three candidate directories with identical counts whose parents are
`/aa`, `/ab`, `/ba`. -/
def exC9List : List DPath := [["aa", "x"], ["ab", "x"], ["ba", "x"]]

/-- **C9 (counterexample).** With kept-count, `count_total` and
`extra_total` all tied, `calc_max` picks `/ab/x` — the maximal
*reversed* parent string — which is neither the path-minimal (`/aa/x`)
nor the path-maximal (`/ba/x`) candidate, so the final tie-break is not
the path in either direction. -/
theorem C9_counterexample :
    (∀ e ∈ exC9List, dirDeleted exσ9 e = false ∧ dirCountTotal exσ9 e = 1 ∧
       (exSt9.meta e).extra_total = 0 ∧ overlapWeight [] e = 0) ∧
    DupeDir.calc_max exSt9 exσ9 exC9List [] = some ["ab", "x"] ∧
    (∀ e ∈ exC9List, listCharCmp (pathStr e).data (pathStr ["ba", "x"]).data ≠ .gt) ∧
    (∀ e ∈ exC9List, listCharCmp (pathStr ["aa", "x"]).data (pathStr e).data ≠ .gt) ∧
    pathStr ["ab", "x"] ≠ pathStr ["ba", "x"] ∧
    pathStr ["ab", "x"] ≠ pathStr ["aa", "x"] := by
  refine ⟨by decide, rfl, by decide, by decide, by decide, by decide⟩

/-- C9 (amended) instantiated on the three-way tie. -/
theorem C9_calc_max_amended_witness :
    DupeDir.calc_max exSt9 exσ9 exC9List [] = some ["ab", "x"] ∧
    (["ab", "x"] : DPath) ∈ exC9List ∧
    dirDeleted exσ9 ["ab", "x"] = false ∧
    (∀ e ∈ exC9List, dirDeleted exσ9 e = false →
       fullKeyCmp (fullKey exSt9 exσ9 [] e) (fullKey exSt9 exσ9 [] ["ab", "x"]) ≠ .gt) :=
  ⟨rfl, (C9_calc_max_amended exSt9 exσ9 exC9List [] ["ab", "x"] rfl).1,
   (C9_calc_max_amended exSt9 exσ9 exC9List [] ["ab", "x"] rfl).2.1,
   (C9_calc_max_amended exSt9 exσ9 exC9List [] ["ab", "x"] rfl).2.2⟩

/-! ### C1: exactly-one resolution and flag monotonicity -/

/-- Both file flags only ever grow. -/
def flagsLe (σ σ' : ResState) : Prop :=
  ∀ p, (σ.fileKept p = true → σ'.fileKept p = true) ∧
       (σ.fileDeleted p = true → σ'.fileDeleted p = true)

/-- No file is both kept and deleted. -/
def exclusive (σ : ResState) : Prop :=
  ∀ p, ¬(σ.fileKept p = true ∧ σ.fileDeleted p = true)

theorem flagsLe_refl (σ : ResState) : flagsLe σ σ :=
  fun _ => ⟨id, id⟩

theorem flagsLe_trans {σ1 σ2 σ3 : ResState}
    (h1 : flagsLe σ1 σ2) (h2 : flagsLe σ2 σ3) : flagsLe σ1 σ3 :=
  fun p => ⟨fun h => (h2 p).1 ((h1 p).1 h), fun h => (h2 p).2 ((h1 p).2 h)⟩

/-- `increment_dupes` never touches the file flags. -/
theorem increment_dupes_fileflags : ∀ (n : Nat) (σ : ResState) (d : DPath),
    (DupeDir.increment_dupes n σ d).fileKept = σ.fileKept ∧
    (DupeDir.increment_dupes n σ d).fileDeleted = σ.fileDeleted := by
  intro n
  induction n with
  | zero => intro σ d; exact ⟨rfl, rfl⟩
  | succ n ih =>
    intro σ d
    simp only [DupeDir.increment_dupes]
    refine ⟨?_, ?_⟩ <;> split
    · exact (ih _ _).1
    · rfl
    · exact (ih _ _).2
    · rfl

/-- `check_delete` never touches the file flags. -/
theorem check_delete_fileflags (st : GraphStatic) (σ : ResState) (d : DPath) :
    (DupeDir.check_delete st σ d).1.fileKept = σ.fileKept ∧
    (DupeDir.check_delete st σ d).1.fileDeleted = σ.fileDeleted := by
  unfold DupeDir.check_delete
  split
  · exact ⟨rfl, rfl⟩
  · exact ⟨rfl, rfl⟩

/-- `decrement_dupes` never touches the file flags. -/
theorem decrement_dupes_fileflags (st : GraphStatic) : ∀ (n : Nat) (σ : ResState) (d : DPath),
    (DupeDir.decrement_dupes st n σ d).fileKept = σ.fileKept ∧
    (DupeDir.decrement_dupes st n σ d).fileDeleted = σ.fileDeleted := by
  intro n
  induction n with
  | zero => intro σ d; exact ⟨rfl, rfl⟩
  | succ n ih =>
    intro σ d
    simp only [DupeDir.decrement_dupes]
    refine ⟨?_, ?_⟩ <;> split
    · exact ((ih _ _).1.trans (check_delete_fileflags st _ d).1)
    · exact (check_delete_fileflags st _ d).1
    · exact ((ih _ _).2.trans (check_delete_fileflags st _ d).2)
    · exact (check_delete_fileflags st _ d).2

/-- `DupeFile.delete` leaves the kept flags unchanged. -/
theorem DupeFile.delete_kept (σ : ResState) (p : DPath) :
    (DupeFile.delete σ p).1.fileKept = σ.fileKept := by
  unfold DupeFile.delete
  split
  · rfl
  · rfl

/-- `DupeFile.delete` only grows the deleted flags. -/
theorem DupeFile.delete_flagsLe (σ : ResState) (p : DPath) :
    flagsLe σ (DupeFile.delete σ p).1 := by
  unfold DupeFile.delete
  split
  · intro q
    refine ⟨fun h => h, fun h => ?_⟩
    show (if q = p then true else σ.fileDeleted q) = true
    split
    · rfl
    · exact h
  · exact flagsLe_refl σ

/-- `DupeFile.delete` preserves mutual exclusion. -/
theorem DupeFile.delete_excl (σ : ResState) (p : DPath) (hx : exclusive σ) :
    exclusive (DupeFile.delete σ p).1 := by
  unfold DupeFile.delete
  split
  · next hc =>
    intro q hq
    by_cases hqp : q = p
    · subst hqp
      exact hc.2 hq.1
    · refine hx q ⟨hq.1, ?_⟩
      have h2 : (if q = p then true else σ.fileDeleted q) = true := hq.2
      rw [if_neg hqp] at h2
      exact h2
  · exact hx

/-- Everything `DupeFile.delete` reports deleted is flagged deleted. -/
theorem DupeFile.delete_marks (σ : ResState) (p : DPath) :
    ∀ q ∈ (DupeFile.delete σ p).2, (DupeFile.delete σ p).1.fileDeleted q = true := by
  unfold DupeFile.delete
  split
  · intro q hq
    have : q = p := List.mem_singleton.mp hq
    subst this
    show (if q = q then true else σ.fileDeleted q) = true
    rw [if_pos rfl]
  · intro q hq
    cases hq

theorem flagsLe_of_flageq {σ1 σ2 : ResState}
    (h1 : σ2.fileKept = σ1.fileKept) (h2 : σ2.fileDeleted = σ1.fileDeleted) :
    flagsLe σ1 σ2 := by
  intro p
  constructor
  · intro h; rw [h1]; exact h
  · intro h; rw [h2]; exact h

theorem exclusive_of_flageq {σ1 σ2 : ResState}
    (h1 : σ2.fileKept = σ1.fileKept) (h2 : σ2.fileDeleted = σ1.fileDeleted)
    (hx : exclusive σ1) : exclusive σ2 := by
  intro p hp
  rw [h1, h2] at hp
  exact hx p hp

/-- The cascade of `DupeFile.delete` calls inside `DupeFile.keep`: the
kept flags are untouched, deleted flags only grow, exclusion is
preserved, and everything collected is flagged deleted. -/
theorem delete_fold_spec (l : List DPath) : ∀ (σ : ResState) (ds : List DPath),
    (l.foldl (fun (acc : ResState × List DPath) dq =>
        let r := DupeFile.delete acc.1 dq
        (r.1, acc.2 ++ r.2)) (σ, ds)).1.fileKept = σ.fileKept ∧
    flagsLe σ (l.foldl (fun (acc : ResState × List DPath) dq =>
        let r := DupeFile.delete acc.1 dq
        (r.1, acc.2 ++ r.2)) (σ, ds)).1 ∧
    (exclusive σ → exclusive (l.foldl (fun (acc : ResState × List DPath) dq =>
        let r := DupeFile.delete acc.1 dq
        (r.1, acc.2 ++ r.2)) (σ, ds)).1) ∧
    ((∀ q ∈ ds, σ.fileDeleted q = true) →
      ∀ q ∈ (l.foldl (fun (acc : ResState × List DPath) dq =>
        let r := DupeFile.delete acc.1 dq
        (r.1, acc.2 ++ r.2)) (σ, ds)).2,
      (l.foldl (fun (acc : ResState × List DPath) dq =>
        let r := DupeFile.delete acc.1 dq
        (r.1, acc.2 ++ r.2)) (σ, ds)).1.fileDeleted q = true) := by
  induction l with
  | nil =>
    intro σ ds
    exact ⟨rfl, flagsLe_refl σ, fun h => h, fun h q hq => h q hq⟩
  | cons dq l ih =>
    intro σ ds
    obtain ⟨ha, hb, hc, hd⟩ := ih (DupeFile.delete σ dq).1 (ds ++ (DupeFile.delete σ dq).2)
    refine ⟨?_, ?_, ?_, ?_⟩
    · exact ha.trans (DupeFile.delete_kept σ dq)
    · exact flagsLe_trans (DupeFile.delete_flagsLe σ dq) hb
    · intro hx
      exact hc (DupeFile.delete_excl σ dq hx)
    · intro hds q hq
      refine hd ?_ q hq
      intro q2 hq2
      rcases List.mem_append.mp hq2 with h1 | h1
      · exact ((DupeFile.delete_flagsLe σ dq) q2).2 (hds q2 h1)
      · exact DupeFile.delete_marks σ dq q2 h1

/-- `DupeFile.keep` grows the flags, preserves exclusion, and flags
everything it reports kept / deleted. -/
theorem DupeFile.keep_spec (st : GraphStatic) (σ : ResState) (p : DPath) :
    flagsLe σ (DupeFile.keep st σ p).1 ∧
    (exclusive σ → exclusive (DupeFile.keep st σ p).1) ∧
    (∀ q ∈ (DupeFile.keep st σ p).2.1, (DupeFile.keep st σ p).1.fileKept q = true) ∧
    (∀ q ∈ (DupeFile.keep st σ p).2.2, (DupeFile.keep st σ p).1.fileDeleted q = true) := by
  unfold DupeFile.keep
  split
  · next hnd =>
    obtain ⟨ha, hb, hc, hd⟩ := delete_fold_spec (st.duplicates p)
      { σ with fileKept := fun q => if q = p then true else σ.fileKept q } []
    have hle1 : flagsLe σ
        { σ with fileKept := fun q => if q = p then true else σ.fileKept q } := by
      intro q
      constructor
      · intro h
        show (if q = p then true else σ.fileKept q) = true
        split
        · rfl
        · exact h
      · intro h; exact h
    refine ⟨flagsLe_trans hle1 hb, ?_, ?_, ?_⟩
    · intro hx
      refine hc ?_
      intro q hq
      by_cases hqp : q = p
      · subst hqp
        exact hnd hq.2
      · have h1 : (if q = p then true else σ.fileKept q) = true := hq.1
        rw [if_neg hqp] at h1
        exact hx q ⟨h1, hq.2⟩
    · intro q hq
      have : q = p := List.mem_singleton.mp hq
      subst this
      rw [ha]
      show (if q = q then true else σ.fileKept q) = true
      rw [if_pos rfl]
    · exact hd (fun q hq => by cases hq)
  · refine ⟨flagsLe_refl σ, fun h => h, ?_, ?_⟩
    · intro q hq; cases hq
    · intro q hq; cases hq

theorem incr_fold_fileflags (l : List DPath) : ∀ σ : ResState,
    (l.foldl (fun σk k => if (σk.dirs k.dropLast).isSome
        then DupeDir.increment_dupes (k.dropLast.length + 1) σk k.dropLast else σk) σ).fileKept
      = σ.fileKept ∧
    (l.foldl (fun σk k => if (σk.dirs k.dropLast).isSome
        then DupeDir.increment_dupes (k.dropLast.length + 1) σk k.dropLast else σk) σ).fileDeleted
      = σ.fileDeleted := by
  induction l with
  | nil => intro σ; exact ⟨rfl, rfl⟩
  | cons k l ih =>
    intro σ
    obtain ⟨ha, hb⟩ := ih (if (σ.dirs k.dropLast).isSome
      then DupeDir.increment_dupes (k.dropLast.length + 1) σ k.dropLast else σ)
    refine ⟨ha.trans ?_, hb.trans ?_⟩
    · split
      · exact (increment_dupes_fileflags _ σ k.dropLast).1
      · rfl
    · split
      · exact (increment_dupes_fileflags _ σ k.dropLast).2
      · rfl

theorem decr_fold_fileflags (st : GraphStatic) (p : DPath) (l : List DPath) :
    ∀ (a : ResState × DelLookup × Int),
    (l.foldl (fun (acc2 : ResState × DelLookup × Int) d =>
        let dlx2 := alistSet acc2.2.1 d p
        let σd2 := if (acc2.1.dirs d.dropLast).isSome
          then DupeDir.decrement_dupes st (d.dropLast.length + 1) acc2.1 d.dropLast else acc2.1
        (σd2, dlx2, acc2.2.2 + st.fsize d)) a).1.fileKept = a.1.fileKept ∧
    (l.foldl (fun (acc2 : ResState × DelLookup × Int) d =>
        let dlx2 := alistSet acc2.2.1 d p
        let σd2 := if (acc2.1.dirs d.dropLast).isSome
          then DupeDir.decrement_dupes st (d.dropLast.length + 1) acc2.1 d.dropLast else acc2.1
        (σd2, dlx2, acc2.2.2 + st.fsize d)) a).1.fileDeleted = a.1.fileDeleted := by
  induction l with
  | nil => intro a; exact ⟨rfl, rfl⟩
  | cons d l ih =>
    intro a
    obtain ⟨ha, hb⟩ := ih ((if (a.1.dirs d.dropLast).isSome
      then DupeDir.decrement_dupes st (d.dropLast.length + 1) a.1 d.dropLast else a.1),
      alistSet a.2.1 d p, a.2.2 + st.fsize d)
    refine ⟨ha.trans ?_, hb.trans ?_⟩
    · show (if (a.1.dirs d.dropLast).isSome
        then DupeDir.decrement_dupes st (d.dropLast.length + 1) a.1 d.dropLast
        else a.1).fileKept = a.1.fileKept
      split
      · exact (decrement_dupes_fileflags st _ a.1 d.dropLast).1
      · rfl
    · show (if (a.1.dirs d.dropLast).isSome
        then DupeDir.decrement_dupes st (d.dropLast.length + 1) a.1 d.dropLast
        else a.1).fileDeleted = a.1.fileDeleted
      split
      · exact (decrement_dupes_fileflags st _ a.1 d.dropLast).2
      · rfl


/-- The invariant threaded through the `file_dupes` fold of
`DupeDir.keep`. -/
def keepInv (σ0 : ResState)
    (acc : ResState × List DPath × List DPath × Int × DelLookup) : Prop :=
  flagsLe σ0 acc.1 ∧ exclusive acc.1 ∧
  (∀ q ∈ acc.2.1, acc.1.fileKept q = true) ∧
  (∀ q ∈ acc.2.2.1, acc.1.fileDeleted q = true)

theorem keepFileStep_inv (st : GraphStatic) (p : DPath) (σ0 : ResState)
    (acc : ResState × List DPath × List DPath × Int × DelLookup) (dupe : DPath)
    (h : keepInv σ0 acc) : keepInv σ0 (keepFileStep st p acc dupe) := by
  obtain ⟨h1, h2, h3, h4⟩ := h
  obtain ⟨k1, k2, k3, k4⟩ := DupeFile.keep_spec st acc.1 dupe
  have hkept : (keepFileStep st p acc dupe).1.fileKept
      = (DupeFile.keep st acc.1 dupe).1.fileKept := by
    simp only [keepFileStep]
    rw [(decr_fold_fileflags st p _ _).1, (incr_fold_fileflags _ _).1]
  have hdel : (keepFileStep st p acc dupe).1.fileDeleted
      = (DupeFile.keep st acc.1 dupe).1.fileDeleted := by
    simp only [keepFileStep]
    rw [(decr_fold_fileflags st p _ _).2, (incr_fold_fileflags _ _).2]
  have hkeeps : (keepFileStep st p acc dupe).2.1
      = acc.2.1 ++ (DupeFile.keep st acc.1 dupe).2.1 := rfl
  have hdels : (keepFileStep st p acc dupe).2.2.1
      = acc.2.2.1 ++ (DupeFile.keep st acc.1 dupe).2.2 := rfl
  refine ⟨?_, ?_, ?_, ?_⟩
  · exact flagsLe_trans h1 (flagsLe_trans k1 (flagsLe_of_flageq hkept hdel))
  · exact exclusive_of_flageq hkept hdel (k2 h2)
  · intro q hq
    rw [hkeeps] at hq
    rw [hkept]
    rcases List.mem_append.mp hq with hh | hh
    · exact (k1 q).1 (h3 q hh)
    · exact k3 q hh
  · intro q hq
    rw [hdels] at hq
    rw [hdel]
    rcases List.mem_append.mp hq with hh | hh
    · exact (k1 q).2 (h4 q hh)
    · exact k4 q hh

theorem keep_fold_inv (st : GraphStatic) (p : DPath) (σ0 : ResState) (l : List DPath) :
    ∀ acc, keepInv σ0 acc → keepInv σ0 (l.foldl (keepFileStep st p) acc) := by
  induction l with
  | nil => intro acc h; exact h
  | cons dupe l ih =>
    intro acc h
    rw [List.foldl_cons]
    exact ih _ (keepFileStep_inv st p σ0 acc dupe h)

/-- `DupeDir.keep` grows the file flags, preserves exclusion, and flags
the keeps/deletes it reports. -/
theorem DupeDir_keep_spec (st : GraphStatic) : ∀ (fuel : Nat) (σ : ResState) (accum : Accum)
    (dl : DelLookup) (p : DPath)
    (out : ResState × Accum × DelLookup × (Option DPath × List DPath × List DPath)),
    exclusive σ → DupeDir.keep st fuel σ accum dl p = some out →
    flagsLe σ out.1 ∧ exclusive out.1 ∧
    (∀ q ∈ out.2.2.2.2.1, out.1.fileKept q = true) ∧
    (∀ q ∈ out.2.2.2.2.2, out.1.fileDeleted q = true) := by
  intro fuel
  induction fuel with
  | zero => intro σ accum dl p out _ h; cases h
  | succ n ih =>
    intro σ accum dl p out hx h
    simp only [DupeDir.keep] at h
    have hbase : keepInv σ (σ, [], [], 0, dl) := by
      refine ⟨flagsLe_refl σ, hx, ?_, ?_⟩
      · intro q hq; cases hq
      · intro q hq; cases hq
    have hinv : keepInv σ ((st.meta p).file_dupes.foldl (keepFileStep st p)
        (σ, [], [], 0, dl)) :=
      keep_fold_inv st p σ (st.meta p).file_dupes (σ, [], [], 0, dl) hbase
    by_cases hk : ((st.meta p).file_dupes.foldl (keepFileStep st p) (σ, [], [], 0, dl)).2.1 ≠ []
    · rw [if_pos hk] at h
      injection h with he
      subst he
      exact ⟨hinv.1, hinv.2.1, hinv.2.2.1, hinv.2.2.2⟩
    · rw [if_neg hk] at h
      cases hcm : DupeDir.calc_max st
          ((st.meta p).file_dupes.foldl (keepFileStep st p) (σ, [], [], 0, dl)).1
          (st.meta p).dupe_children (accum.map (·.1)) with
      | none =>
        rw [hcm] at h
        injection h with he
        subst he
        refine ⟨hinv.1, hinv.2.1, ?_, ?_⟩
        · intro q hq; cases hq
        · intro q hq; cases hq
      | some dd =>
        rw [hcm] at h
        obtain ⟨g1, g2, g3, g4⟩ := ih _ _ _ _ _ hinv.2.1 h
        exact ⟨flagsLe_trans hinv.1 g1, g2, g3, g4⟩

/-- The resolution loop grows the flags, keeps them exclusive, and on
normal exit every duplicate file carries a flag. -/
theorem resolveLoop_spec (st : GraphStatic) : ∀ (n : Nat) (σ : ResState) (accum : Accum)
    (dl : DelLookup) (reviewed : List DPath) (out : ResState × Accum × DelLookup),
    exclusive σ →
    (∀ q ∈ reviewed, σ.fileKept q = true ∨ σ.fileDeleted q = true) →
    resolveLoop st n σ accum dl reviewed = some out →
    flagsLe σ out.1 ∧ exclusive out.1 ∧
    (∀ f ∈ st.allDupes, out.1.fileKept f = true ∨ out.1.fileDeleted f = true) := by
  intro n
  induction n with
  | zero => intro σ accum dl reviewed out _ _ h; cases h
  | succ n ih =>
    intro σ accum dl reviewed out hx hrev h
    simp only [resolveLoop] at h
    by_cases hrem : (st.allDupes.filter (fun f => decide (f ∉ reviewed))).length = 0
    · rw [if_pos hrem] at h
      injection h with he
      subst he
      refine ⟨flagsLe_refl σ, hx, ?_⟩
      intro f hf
      have hfr : f ∈ reviewed := by
        by_contra hnot
        have hm : f ∈ st.allDupes.filter (fun f => decide (f ∉ reviewed)) :=
          List.mem_filter.mpr ⟨hf, decide_eq_true hnot⟩
        rw [List.length_eq_zero.mp hrem] at hm
        cases hm
      exact hrev f hfr
    · rw [if_neg hrem] at h
      by_cases hany : (st.allDupes.filter (fun f => decide (f ∉ reviewed))).any
          (fun df => (σ.dirs df.dropLast).isNone) = true
      · rw [if_pos hany] at h
        cases h
      · rw [if_neg hany] at h
        split at h
        · cases h
        · next d hcm =>
          split at h
          · cases h
          · next σ2 accum2 dl2 opt ks ds hkp =>
            obtain ⟨g1, g2, g3, g4⟩ := DupeDir_keep_spec st n σ accum dl d
              (σ2, accum2, dl2, (opt, ks, ds)) hx hkp
            have hrev2 : ∀ q ∈ reviewed ++ ks ++ ds,
                σ2.fileKept q = true ∨ σ2.fileDeleted q = true := by
              intro q hq
              rcases List.mem_append.mp hq with hq1 | hq1
              · rcases List.mem_append.mp hq1 with hq2 | hq2
                · rcases hrev q hq2 with hk | hk
                  · exact Or.inl ((g1 q).1 hk)
                  · exact Or.inr ((g1 q).2 hk)
                · exact Or.inl (g3 q hq2)
              · exact Or.inr (g4 q hq1)
            obtain ⟨r1, r2, r3⟩ := ih σ2 accum2 dl2 (reviewed ++ ks ++ ds) out g2 hrev2 h
            exact ⟨flagsLe_trans g1 r1, r2, r3⟩

/-- The full resolution of `DirectoryComparator.analyze` grows the
flags, keeps them exclusive, and flags every duplicate file. -/
theorem analyzeResolve_spec (st : GraphStatic) (fuel : Nat) (σ0 : ResState)
    (out : ResState × Accum × DelLookup)
    (hx : exclusive σ0) (h : analyzeResolve st fuel σ0 = some out) :
    flagsLe σ0 out.1 ∧ exclusive out.1 ∧
    (∀ f ∈ st.allDupes, out.1.fileKept f = true ∨ out.1.fileDeleted f = true) := by
  unfold analyzeResolve at h
  split at h
  · cases h
  · next d hcm =>
    split at h
    · cases h
    · next σ1 accum1 dl1 opt ks ds hkp =>
      obtain ⟨g1, g2, g3, g4⟩ := DupeDir_keep_spec st fuel σ0 [] [] d
        (σ1, accum1, dl1, (opt, ks, ds)) hx hkp
      have hrev : ∀ q ∈ ks ++ ds, σ1.fileKept q = true ∨ σ1.fileDeleted q = true := by
        intro q hq
        rcases List.mem_append.mp hq with h1 | h1
        · exact Or.inl (g3 q h1)
        · exact Or.inr (g4 q h1)
      obtain ⟨r1, r2, r3⟩ := resolveLoop_spec st fuel σ1 accum1 dl1 (ks ++ ds) out g2 hrev h
      exact ⟨flagsLe_trans g1 r1, r2, r3⟩

theorem foldlM_flags_inv {β : Type _} (f : (ResState × Accum) → β → Option (ResState × Accum))
    (hf : ∀ a b r, f a b = some r →
      r.1.fileKept = a.1.fileKept ∧ r.1.fileDeleted = a.1.fileDeleted) :
    ∀ (l : List β) (a r : ResState × Accum), l.foldlM f a = some r →
      r.1.fileKept = a.1.fileKept ∧ r.1.fileDeleted = a.1.fileDeleted := by
  intro l
  induction l with
  | nil =>
    intro a r h
    rw [List.foldlM_nil] at h
    injection h with he
    subst he
    exact ⟨rfl, rfl⟩
  | cons b l ih =>
    intro a r h
    rw [List.foldlM_cons] at h
    cases hfb : f a b with
    | none => rw [hfb] at h; cases h
    | some a2 =>
      rw [hfb] at h
      obtain ⟨e1, e2⟩ := ih a2 r h
      obtain ⟨e3, e4⟩ := hf a b a2 hfb
      exact ⟨e1.trans e3, e2.trans e4⟩

theorem cleanupDirStep_flags (st : GraphStatic) (dlookup : DelLookup)
    (a : ResState × Accum) (dd : DPath) (r : ResState × Accum)
    (h : cleanupDirStep st dlookup a dd = some r) :
    r.1.fileKept = a.1.fileKept ∧ r.1.fileDeleted = a.1.fileDeleted := by
  unfold cleanupDirStep at h
  split at h
  · split at h
    · cases h
    · injection h with he
      subst he
      exact ⟨(check_delete_fileflags st a.1 dd).1, (check_delete_fileflags st a.1 dd).2⟩
  · injection h with he
    subst he
    exact ⟨(check_delete_fileflags st a.1 dd).1, (check_delete_fileflags st a.1 dd).2⟩

/-- The cleanup loop never changes the file flags: it only flips
directory deletion flags and rewrites the output delete sets. -/
theorem cleanupPass_flags (st : GraphStatic) (σ : ResState) (accum : Accum)
    (dlookup : DelLookup) (σc : ResState) (accumc : Accum)
    (h : cleanupPass st σ accum dlookup = some (σc, accumc)) :
    σc.fileKept = σ.fileKept ∧ σc.fileDeleted = σ.fileDeleted := by
  unfold cleanupPass at h
  exact foldlM_flags_inv (cleanupKeyStep st dlookup)
    (fun a key r hr => foldlM_flags_inv (cleanupDirStep st dlookup)
      (fun a2 dd r2 hr2 => cleanupDirStep_flags st dlookup a2 dd r2 hr2)
      _ a r hr)
    _ (σ, accum) (σc, accumc) h

/-- **C1.** After the resolution loop of `DirectoryComparator.analyze`
terminates normally, every file of every duplicate group carries exactly
one of the `is_kept`/`is_deleted` flags — never both, never neither —
the flags grew monotonically from the initial state, and the final
cleanup pass never unsets a file flag. -/
theorem C1_exactly_one_resolution (st : GraphStatic) (fuel : Nat) (σ0 : ResState)
    (out : ResState × Accum × DelLookup)
    (hexcl : exclusive σ0)
    (hrun : analyzeResolve st fuel σ0 = some out) :
    (∀ f ∈ st.allDupes,
       (out.1.fileKept f = true ∨ out.1.fileDeleted f = true) ∧
       ¬(out.1.fileKept f = true ∧ out.1.fileDeleted f = true)) ∧
    flagsLe σ0 out.1 ∧
    (∀ σc accumc, cleanupPass st out.1 out.2.1 out.2.2 = some (σc, accumc) →
       σc.fileKept = out.1.fileKept ∧ σc.fileDeleted = out.1.fileDeleted) := by
  obtain ⟨g1, g2, g3⟩ := analyzeResolve_spec st fuel σ0 out hexcl hrun
  refine ⟨?_, g1, ?_⟩
  · intro f hf
    exact ⟨g3 f hf, g2 f⟩
  · intro σc accumc hc
    exact cleanupPass_flags st out.1 out.2.1 out.2.2 σc accumc hc

/-- The duplicate graph of two mutually duplicate files `/d1/x`,
`/d2/x`. -/
def exSt1 : GraphStatic :=
  { duplicates := (fun p => if p = ["d1", "x"] then [["d2", "x"]]
      else if p = ["d2", "x"] then [["d1", "x"]] else [])
    fsize := fun _ => 5
    meta := (fun d => if d = ["d1"] then ⟨[["d1", "x"]], [], [], [], [], 0⟩
      else if d = ["d2"] then ⟨[["d2", "x"]], [], [], [], [], 0⟩
      else ⟨[], [], [], [], [], 0⟩)
    allDupes := [["d1", "x"], ["d2", "x"]]
    byDepth := [(2, [["d1"], ["d2"]])] }

/-- The initial resolution state for the two-file scenario. -/
def exσ1 : ResState :=
  { fileKept := fun _ => false
    fileDeleted := fun _ => false
    dirs := (fun d => if d = ["d1"] ∨ d = ["d2"] then some ⟨1, 1, false⟩ else none) }

/-- The result of resolving the two-file scenario. -/
def exOut1 : ResState × Accum × DelLookup :=
  (analyzeResolve exSt1 5 exσ1).getD (exσ1, [], [])

/-- C1 instantiated on the concrete two-file run. -/
theorem C1_exactly_one_resolution_witness :
    exclusive exσ1 ∧
    analyzeResolve exSt1 5 exσ1 = some exOut1 ∧
    ((∀ f ∈ exSt1.allDupes,
       (exOut1.1.fileKept f = true ∨ exOut1.1.fileDeleted f = true) ∧
       ¬(exOut1.1.fileKept f = true ∧ exOut1.1.fileDeleted f = true)) ∧
     flagsLe exσ1 exOut1.1 ∧
     (∀ σc accumc, cleanupPass exSt1 exOut1.1 exOut1.2.1 exOut1.2.2 = some (σc, accumc) →
        σc.fileKept = exOut1.1.fileKept ∧ σc.fileDeleted = exOut1.1.fileDeleted)) :=
  ⟨fun _ h => Bool.false_ne_true h.1, rfl,
   C1_exactly_one_resolution exSt1 5 exσ1 exOut1 (fun _ h => Bool.false_ne_true h.1) rfl⟩

/-! ### C7: the `HashAnalysis` of `deduplicate.py`, its merge, and the
empty-directory behaviour of `DirectoryComparator.analyze` -/

/-- The dictionaries of a `HashAnalysis` instance. -/
structure HAState where
  hashes_by_size : List (Int × List DPath)
  rev_hashes_by_size : List (DPath × Int)
  hashes_on_1k : List (String × List DPath)
  rev_hashes_on_1k : List (DPath × String)
  hashes_full : List (String × List DPath)
  rev_hashes_full : List (DPath × String)
  empty_dirs : List DPath
deriving DecidableEq

def emptyHAState : HAState := ⟨[], [], [], [], [], [], []⟩

/-- Pass 1, one file: record its size (`0` on OSError). -/
def haFileStep (w : FsWorld) (dirpath : DPath) (hsf : HAState) (filename : String) : HAState :=
  let full_path := dirpath ++ [filename]
  let file_size := match w.size full_path with
    | some s => s
    | none => 0
  { hsf with
    hashes_by_size := groupAdd hsf.hashes_by_size file_size full_path
    rev_hashes_by_size := alistSet hsf.rev_hashes_by_size full_path file_size }

/-- Pass 1, one `os.walk` tuple: size every file, and record the
directory as empty when it has no children. -/
def haTupleStep (w : FsWorld) (hs2 : HAState) (t : DPath × List String × List String) : HAState :=
  let hs3 := t.2.2.foldl (haFileStep w t.1) hs2
  if t.2.1.length = 0 ∧ t.2.2.length = 0 then
    { hs3 with empty_dirs := setAdd hs3.empty_dirs t.1 }
  else hs3

def haRootStep (w : FsWorld) (hs : HAState) (path : DPath) : HAState :=
  (w.walk path).foldl (haTupleStep w) hs

def haPass1 (w : FsWorld) (paths : List DPath) (h0 : HAState) : HAState :=
  paths.foldl (haRootStep w) h0

/-- Pass 2: 1 KiB hashes for every size collision (`None` hashes are
skipped). -/
def haPass2 (w : FsWorld) (hs : HAState) : HAState :=
  hs.hashes_by_size.foldl (fun h kv =>
    if kv.2.length < 2 then h
    else kv.2.foldl (fun h2 file =>
      match w.h1k file with
      | some small_hash =>
        { h2 with
          hashes_on_1k := groupAdd h2.hashes_on_1k small_hash file
          rev_hashes_on_1k := alistSet h2.rev_hashes_on_1k file small_hash }
      | none => h2) h) hs

/-- Pass 3: full hashes for every 1 KiB collision. -/
def haPass3 (w : FsWorld) (hs : HAState) : HAState :=
  hs.hashes_on_1k.foldl (fun h kv =>
    if kv.2.length < 2 then h
    else kv.2.foldl (fun h2 file =>
      match w.hfull file with
      | some full_hash =>
        { h2 with
          hashes_full := groupAdd h2.hashes_full full_hash file
          rev_hashes_full := alistSet h2.rev_hashes_full file full_hash }
      | none => h2) h) hs

/-- `HashAnalysis.analyze` of `deduplicate.py` on a fresh instance. -/
def HashAnalysis.analyze (w : FsWorld) (paths : List DPath) : HAState :=
  haPass3 w (haPass2 w (haPass1 w paths emptyHAState))

/-- `HashAnalysis.merge_hashes_by_size`: union the size groups for keys
common to both analyses (keys only in the second are dropped), copy the
reverse size map, and union the empty-dir sets. -/
def merge_hashes_by_size (a1 a2 : HAState) : HAState :=
  { a1 with
    hashes_by_size := (a1.hashes_by_size.map (fun kv =>
      match alistGet a2.hashes_by_size kv.1 with
      | some files2 => (kv.1, files2.foldl setAdd kv.2)
      | none => kv))
    rev_hashes_by_size := (a2.rev_hashes_by_size.foldl
      (fun r kv => alistSet r kv.1 kv.2) a1.rev_hashes_by_size)
    empty_dirs := (a2.empty_dirs.foldl setAdd a1.empty_dirs) }

/-- `HashAnalysis.merge_hashes_on_1k`: re-derive the 1 KiB hash of every
size-colliding file from either analysis, hashing fresh on a miss. -/
def merge_hashes_on_1k (w : FsWorld) (a2 : HAState) (a1 : HAState) : HAState :=
  a1.hashes_by_size.foldl (fun h kv =>
    if kv.2.length < 2 then h
    else kv.2.foldl (fun h2 file =>
      let small_hash := match alistGet h2.rev_hashes_on_1k file with
        | some sh => some sh
        | none => match alistGet a2.rev_hashes_on_1k file with
          | some sh => some sh
          | none => w.h1k file
      match small_hash with
      | some sh =>
        { h2 with
          hashes_on_1k := groupAdd h2.hashes_on_1k sh file
          rev_hashes_on_1k := alistSet h2.rev_hashes_on_1k file sh }
      | none => h2) h) a1

/-- One file of `merge_hashes_on_full`: find the full hash and size from
either analysis (hashing fresh on a miss); `none` models the `KeyError`
on a missing size entry; a `None` fresh hash is skipped. -/
def mergeFullFile (w : FsWorld) (a2 : HAState)
    (acc2 : HAState × List (String × Int)) (file : DPath) :
    Option (HAState × List (String × Int)) :=
  let h2 := acc2.1
  let record := fun (fh : String) (fs : Int) =>
    ({ h2 with
       hashes_full := groupAdd h2.hashes_full fh file
       rev_hashes_full := alistSet h2.rev_hashes_full file fh
       rev_hashes_by_size := alistSet h2.rev_hashes_by_size file fs },
     alistSet acc2.2 fh fs)
  match alistGet h2.rev_hashes_full file with
  | some fh =>
    match alistGet h2.rev_hashes_by_size file with
    | some fs => some (record fh fs)
    | none => none
  | none =>
    match alistGet a2.rev_hashes_full file with
    | some fh =>
      match alistGet a2.rev_hashes_by_size file with
      | some fs => some (record fh fs)
      | none => none
    | none =>
      match (match alistGet h2.rev_hashes_by_size file with
             | some s => some s
             | none => alistGet a2.rev_hashes_by_size file) with
      | none => none
      | some fs =>
        match w.hfull file with
        | some fh => some (record fh fs)
        | none => some acc2

/-- `HashAnalysis.merge_hashes_on_full`, also building `hash_file_size`. -/
def merge_hashes_on_full (w : FsWorld) (a2 : HAState) (a1 : HAState) :
    Option (HAState × List (String × Int)) :=
  a1.hashes_on_1k.foldlM (fun (acc : HAState × List (String × Int)) kv =>
    if kv.2.length < 2 then some acc
    else kv.2.foldlM (mergeFullFile w a2) acc) (a1, [])

/-- `HashAnalysis.merge` (both analyses fully loaded). -/
def HashAnalysis.merge (w : FsWorld) (a1 a2 : HAState) :
    Option (HAState × List (String × Int)) :=
  merge_hashes_on_full w a2 (merge_hashes_on_1k w a2 (merge_hashes_by_size a1 a2))

/-- The merged analysis computed at the top of
`DirectoryComparator.analyze`. -/
def comparatorMerged (w : FsWorld) (paths1 paths2 : List DPath) :
    Option (HAState × List (String × Int)) :=
  HashAnalysis.merge w (HashAnalysis.analyze w paths1) (HashAnalysis.analyze w paths2)

/-- The early-exit decision of `DirectoryComparator.analyze`:
`some (some accum)` means the function returned `accum` through the
`if not hashes_full: return {}` branch; `some none` means it proceeded
into the duplicate pipeline; `none` is a crash during the merge. -/
def comparatorAnalyzeEarly (w : FsWorld) (paths1 paths2 : List DPath) :
    Option (Option Accum) :=
  match comparatorMerged w paths1 paths2 with
  | none => none
  | some (m, _) => if m.hashes_full = [] then some (some []) else some none

theorem mem_setAdd_self {α : Type _} [DecidableEq α] (l : List α) (x : α) : x ∈ setAdd l x := by
  unfold setAdd
  split
  · assumption
  · exact List.mem_append.mpr (Or.inr (List.mem_singleton.mpr rfl))

theorem mem_setAdd_of_mem {α : Type _} [DecidableEq α] {l : List α} {y : α} (x : α)
    (h : y ∈ l) : y ∈ setAdd l x := by
  unfold setAdd
  split
  · exact h
  · exact List.mem_append.mpr (Or.inl h)

/-- The filesystem with exactly the two empty directories `/r1` and
`/r2`. -/
def exW7 : FsWorld :=
  { walk := (fun p => if p = ["r1"] then [(["r1"], [], [])]
      else if p = ["r2"] then [(["r2"], [], [])] else [])
    size := fun _ => none
    h1k := fun _ => none
    hfull := fun _ => none }

/-- **C7 (counterexample).** On two empty directories at different
paths, `DirectoryComparator.analyze` records both as empty dirs but the
merged `hashes_full` is empty, so the function returns the empty result
through `if not hashes_full: return {}` — no directory is ever marked
kept or deleted, refuting "one kept, one deleted". -/
theorem C7_counterexample :
    comparatorAnalyzeEarly exW7 [["r1"]] [["r2"]] = some (some []) ∧
    (∃ m hfs, comparatorMerged exW7 [["r1"]] [["r2"]] = some (m, hfs) ∧
       m.empty_dirs = [["r1"], ["r2"]] ∧ m.hashes_full = []) :=
  ⟨rfl, ⟨_, _, rfl, rfl, rfl⟩⟩

/-- **C7 (amended).** When the two analyzed roots are empty directories,
both are recorded in the merged `empty_dirs`, but the merged
`hashes_full` is empty and `DirectoryComparator.analyze` exits early
with the empty result: neither directory is marked kept or deleted. -/
theorem C7_empty_dirs_amended (w : FsWorld) (r1 r2 : DPath)
    (hw1 : w.walk r1 = [(r1, [], [])]) (hw2 : w.walk r2 = [(r2, [], [])]) :
    comparatorAnalyzeEarly w [r1] [r2] = some (some []) ∧
    ∃ m hfs, comparatorMerged w [r1] [r2] = some (m, hfs) ∧
      r1 ∈ m.empty_dirs ∧ r2 ∈ m.empty_dirs ∧ m.hashes_full = [] := by
  have ha1 : HashAnalysis.analyze w [r1] = { emptyHAState with empty_dirs := [r1] } := by
    unfold HashAnalysis.analyze haPass1
    rw [List.foldl_cons, List.foldl_nil]
    unfold haRootStep
    rw [hw1]
    rfl
  have ha2 : HashAnalysis.analyze w [r2] = { emptyHAState with empty_dirs := [r2] } := by
    unfold HashAnalysis.analyze haPass1
    rw [List.foldl_cons, List.foldl_nil]
    unfold haRootStep
    rw [hw2]
    rfl
  have hm : comparatorMerged w [r1] [r2]
      = some ({ emptyHAState with empty_dirs := setAdd [r1] r2 }, []) := by
    unfold comparatorMerged
    rw [ha1, ha2]
    rfl
  have hearly : comparatorAnalyzeEarly w [r1] [r2] = some (some []) := by
    unfold comparatorAnalyzeEarly
    rw [hm]
    rfl
  refine ⟨hearly, _, _, hm, ?_, ?_, rfl⟩
  · exact mem_setAdd_of_mem r2 (List.mem_singleton.mpr rfl)
  · exact mem_setAdd_self [r1] r2

/-- C7 (amended) instantiated on the concrete two-empty-dir world. -/
theorem C7_empty_dirs_amended_witness :
    exW7.walk ["r1"] = [(["r1"], [], [])] ∧
    exW7.walk ["r2"] = [(["r2"], [], [])] ∧
    (comparatorAnalyzeEarly exW7 [["r1"]] [["r2"]] = some (some []) ∧
     ∃ m hfs, comparatorMerged exW7 [["r1"]] [["r2"]] = some (m, hfs) ∧
       (["r1"] : DPath) ∈ m.empty_dirs ∧ (["r2"] : DPath) ∈ m.empty_dirs ∧
       m.hashes_full = []) :=
  ⟨rfl, rfl, C7_empty_dirs_amended exW7 ["r1"] ["r2"] rfl rfl⟩
